import Mathlib

/-!
# shelley: command builder and runner

A shallow embedding of `internal/shelley/shelley.go`.

* Go strings are sequences of characters (`GoString`).
* A `*Cmd` and everything reachable from it through `parent` is a value of the
  inductive type `Cmd`; a builder method that mutates its receiver and returns
  it becomes a function from the old descriptor to the new one.
* The `exec.Cmd` stored in the field `c.cmd` is passed next to the descriptor.
* Everything outside the program (the inherited environment, `os.Pipe`, the
  behaviour of the spawned processes, the quoting function of go-shellquote)
  is a parameter, collected in `World`.
* A Go run-time panic (index out of range) is the result `none`.
-/

set_option autoImplicit false

namespace Shelley

/-- Go `string`, as the sequence of characters it holds; the UTF-8 encoding is
not modelled. -/
abbrev GoString := List Char

/-- Values of the Go `error` interface that the program can meet, classified
the way the program can tell them apart. -/
inductive Error where
  /-- `*exec.ExitError`: the process ran and `ExitCode()` is `code`. -/
  | exit (code : Int)
  /-- `cmd.Run()` could not start the process. -/
  | start (msg : GoString)
  /-- `os.Pipe()` could not allocate a pipe. -/
  | pipe (msg : GoString)
deriving DecidableEq, Repr

/-- `errors.As(err, &exitErr)` with `exitErr` of type `ExitError`, followed by
`exitErr.ExitCode()`. -/
def Error.asExitError : Error → Option Int
  | .exit code => some code
  | .start _ => none
  | .pipe _ => none

/-- What a standard stream of an `exec.Cmd` can be bound to. A stream field
that is `nil` is `none : Option Handle`; os/exec connects it to the null device. -/
inductive Handle where
  | osStdin
  | osStdout
  | osStderr
  /-- Read end `pr` of the pipe allocated by stage `link`. -/
  | pipeRead (link : Nat)
  /-- Write end `pw` of the pipe allocated by stage `link`. -/
  | pipeWrite (link : Nat)
  /-- The `bytes.Buffer` declared in `Text`. -/
  | buffer
deriving DecidableEq, Repr

/-- The fields of `exec.Cmd` that the program sets. -/
structure ExecCmd where
  Path : GoString
  Args : List GoString
  Env : List GoString
  Stdin : Option Handle
  Stdout : Option Handle
  Stderr : Option Handle
deriving DecidableEq, Repr

/-- `exec.Command(name, arg...)`; the PATH lookup of `name` is left to the world. -/
def execCommand (name : GoString) (arg : List GoString) : ExecCmd :=
  { Path := name, Args := name :: arg, Env := [], Stdin := none, Stdout := none, Stderr := none }

/-- The struct `Cmd` without its field `cmd`. -/
inductive Cmd where
  | mk (parent : Option Cmd) (args : List GoString) (envs : List GoString)
      (debug : Bool) (errexit : Bool) (nostdout : Bool) (nostderr : Bool)
deriving Repr

namespace Cmd

def parent : Cmd → Option Cmd
  | .mk p _ _ _ _ _ _ => p

def args : Cmd → List GoString
  | .mk _ a _ _ _ _ _ => a

def envs : Cmd → List GoString
  | .mk _ _ e _ _ _ _ => e

def debug : Cmd → Bool
  | .mk _ _ _ d _ _ _ => d

def errexit : Cmd → Bool
  | .mk _ _ _ _ x _ _ => x

def nostdout : Cmd → Bool
  | .mk _ _ _ _ _ o _ => o

def nostderr : Cmd → Bool
  | .mk _ _ _ _ _ _ e => e

end Cmd

/-! ## Builder -/

/-- `Command(args...)`: `&Cmd{args: args}`. -/
def Command (args : List GoString) : Cmd :=
  .mk none args [] false false false false

/-- `c.Pipe(args...)`: `&Cmd{parent: c, args: args}`. -/
def Cmd.Pipe (c : Cmd) (args : List GoString) : Cmd :=
  .mk (some c) args [] false false false false

/-- `c.Env(name, value)`: `c.envs = append(c.envs, name+"="+value)`. -/
def Cmd.Env : Cmd → GoString → GoString → Cmd
  | .mk p a e d x o r, name, value => .mk p a (e ++ [name ++ ['='] ++ value]) d x o r

/-- `c.Debug()`: `c.debug = true`. -/
def Cmd.Debug : Cmd → Cmd
  | .mk p a e _ x o r => .mk p a e true x o r

/-- `c.ErrExit()`: `c.errexit = true`. -/
def Cmd.ErrExit : Cmd → Cmd
  | .mk p a e d _ o r => .mk p a e d true o r

/-- `c.NoStdout()`: `c.nostdout = true`. -/
def Cmd.NoStdout : Cmd → Cmd
  | .mk p a e d x _ r => .mk p a e d x true r

/-- `c.NoStderr()`: `c.nostderr = true`. -/
def Cmd.NoStderr : Cmd → Cmd
  | .mk p a e d x o _ => .mk p a e d x o true

/-- `c.NoOutput()`: `c.NoStdout().NoStderr()`. -/
def Cmd.NoOutput (c : Cmd) : Cmd :=
  c.NoStdout.NoStderr

/-! ## The outside world -/

/-- What one call of `cmd.Run()` does: the bytes the process wrote to its
standard output and the error returned. -/
structure ProcResult where
  stdout : GoString
  err : Option Error
deriving DecidableEq, Repr

/-- Everything the engine takes from outside the program. Stages are numbered
from the stage whose extractor was called (0) towards the head of the pipeline:
the upstream of stage `i` is stage `i + 1`. -/
structure World where
  /-- `os.Environ()`. -/
  environ : List GoString
  /-- Quoting of one word by `shellquote.Join`. -/
  quote : GoString → GoString
  /-- Error of the call `os.Pipe()` made by stage `i`, `none` when a pipe was allocated. -/
  osPipe : Nat → Option Error
  /-- Behaviour of the call `c.cmd.Run()` made by stage `i` on the given `exec.Cmd`. -/
  cmdRun : Nat → ExecCmd → ProcResult

/-! ## Library functions -/

/-- `strings.SplitN(s, "=", 2)`: the parts before and after the first `=`, or
`s` alone when it has none. -/
def splitN2 (s : GoString) : List GoString :=
  match s.span (fun ch => ch != '=') with
  | (a, []) => [a]
  | (a, _ :: b) => [a, b]

/-- `shellquote.Join(args...)`: every word quoted, words separated by one space. -/
def shellquoteJoin (quote : GoString → GoString) (args : List GoString) : GoString :=
  [' '].intercalate (args.map quote)

/-- `unicode.IsSpace`. -/
def IsSpace (r : Char) : Bool :=
  let n := r.toNat
  (0x09 ≤ n && n ≤ 0x0D) || n == 0x20 || n == 0x85 || n == 0xA0 || n == 0x1680 ||
  (0x2000 ≤ n && n ≤ 0x200A) || n == 0x2028 || n == 0x2029 || n == 0x202F ||
  n == 0x205F || n == 0x3000

/-- `strings.TrimSpace`: white space removed from the left, then from the right. -/
def TrimSpace (s : GoString) : GoString :=
  ((s.dropWhile IsSpace).reverse.dropWhile IsSpace).reverse

/-! ## Execution engine -/

/-- `c.initCmd()`: the new value of `c.cmd`; `none` when `c.args[0]` is out of range. -/
def initCmd (w : World) (c : Cmd) : Option ExecCmd :=
  match c.args with
  | [] => none
  | name :: arg => some { execCommand name arg with Env := w.environ ++ c.envs }

/-- Body of the loop of `logDebug`: one override appended to `envString`;
`none` when `split[1]` is out of range. -/
def envStringStep (w : World) (acc : Option GoString) (env : GoString) : Option GoString :=
  match acc with
  | none => none
  | some envString =>
    let split := splitN2 env
    match split[0]?, split[1]? with
    | some name, some value =>
      some (envString ++ (name ++ ['='] ++ shellquoteJoin w.quote [value] ++ [' ']))
    | _, _ => none

/-- `c.logDebug()`: the line handed to `log.Print`; `none` when `split[1]` is
out of range. -/
def logDebug (w : World) (c : Cmd) : Option GoString :=
  (c.envs.foldl (envStringStep w) (some [])).map fun envString =>
    ['+', ' '] ++ envString ++ shellquoteJoin w.quote c.args

/-- What one stage does, in the order in which its goroutine does it. -/
inductive Event where
  /-- `os.Pipe()` returned a pipe; the upstream got `initCmd` and the write end
  as stdout, this stage the read end as stdin. -/
  | pipe
  /-- The `go` statement: the upstream `run()` starts in its own goroutine. -/
  | spawn
  /-- `log.Print(line)`. -/
  | print (line : GoString)
  /-- `c.cmd.Run()` on `cmd`, which returned `err`. -/
  | exec (cmd : ExecCmd) (err : Option Error)
deriving DecidableEq, Repr

/-- What `startParent` leaves behind when it returns. -/
inductive Started where
  /-- No upstream: `parentErr <- nil`. -/
  | root
  /-- `os.Pipe()` failed: `err` is returned. -/
  | failed (err : Error)
  /-- The pipe is in place: `cmd` is `c.cmd` with stdin bound, `pcmd` is
  `c.parent.cmd`, on which the goroutine calls `c.parent.run()`. -/
  | piped (cmd : ExecCmd) (pcmd : ExecCmd)
deriving DecidableEq, Repr

/-- `c.startParent()` up to the `go` statement, called by stage `i`. -/
def startParent (w : World) (i : Nat) (c : Cmd) (cmd : ExecCmd) : Option Started :=
  match c.parent with
  | none => some .root
  | some p =>
    match w.osPipe i with
    | some err => some (.failed err)
    | none =>
      match initCmd w p with
      | none => none
      | some pcmd =>
        some (.piped { cmd with Stdin := some (.pipeRead i) }
          { pcmd with Stdout := some (.pipeWrite i) })

/-- The stream defaults at the head of `run`. -/
def bindDefaults (c : Cmd) (cmd : ExecCmd) : ExecCmd :=
  let cmd := if cmd.Stdin = none then { cmd with Stdin := some .osStdin } else cmd
  let cmd := if cmd.Stdout = none ∧ c.nostdout = false then { cmd with Stdout := some .osStdout } else cmd
  let cmd := if cmd.Stderr = none ∧ c.nostderr = false then { cmd with Stderr := some .osStderr } else cmd
  cmd

/-- Result of `run`. -/
structure RunResult where
  /-- The returned error. -/
  err : Option Error
  /-- Contents of the `bytes.Buffer` of `Text` after the call. -/
  stdout : GoString
  /-- Events of this stage, followed by those of its upstream stages, one list
  per goroutine. -/
  trace : List (List Event)
deriving DecidableEq, Repr

/-- The part of `run` after `startParent`: `logDebug`, `c.cmd.Run()`, and the
reconciliation with the error `perr` received from `parentErr`. -/
def runOwn (w : World) (i : Nat) (c : Cmd) (cmd : ExecCmd) (before : List Event)
    (perr : Option Error) (upstream : List (List Event)) : Option RunResult :=
  let printed : Option (List Event) :=
    if c.debug then (logDebug w c).map fun line => [Event.print line] else some []
  match printed with
  | none => none
  | some printed =>
    let res := w.cmdRun i cmd
    let captured := if cmd.Stdout = some .buffer then res.stdout else []
    let events := before ++ printed ++ [Event.exec cmd res.err]
    match perr, res.err with
    | some perr, none => some ⟨some perr, captured, events :: upstream⟩
    | _, err => some ⟨err, captured, events :: upstream⟩

/-- `c.run()` for stage `i`, with `cmd` the current `c.cmd`. -/
def run (w : World) : Nat → Cmd → ExecCmd → Option RunResult
  | i, .mk parent a e d x o r, cmd =>
    let c := Cmd.mk parent a e d x o r
    let cmd := bindDefaults c cmd
    match startParent w i c cmd with
    | none => none
    | some (.failed err) => some ⟨some err, [], [[]]⟩
    | some .root => runOwn w i c cmd [] none []
    | some (.piped cmd pcmd) =>
      match parent with
      -- not reached: `startParent` answers `piped` only when there is an upstream
      | none => none
      | some p =>
        match run w (i + 1) p pcmd with
        | none => none
        | some up => runOwn w i c cmd [.pipe, .spawn] up.err up.trace

/-- How a call of an extractor ends. -/
inductive Outcome (α : Type) where
  /-- The extractor returned `value` to its caller. -/
  | returned (value : α)
  /-- `os.Exit(code)`. -/
  | osExit (code : Int)
  /-- `log.Fatal(err)`: `err` is logged, then `os.Exit(1)`. -/
  | logFatal (err : Error)
deriving DecidableEq, Repr

/-- Exit status with which the program terminated (the code handed to
`os.Exit`), `none` when it did not terminate. -/
def Outcome.status {α : Type} : Outcome α → Option Int
  | .returned _ => none
  | .osExit code => some code
  | .logFatal _ => some 1

/-- The error written to the log on termination. -/
def Outcome.logged {α : Type} : Outcome α → Option Error
  | .logFatal err => some err
  | _ => none

/-- `c.exitForError(err)`; it does not return. -/
def exitForError {α : Type} (err : Error) : Outcome α :=
  match err.asExitError with
  | some code => .osExit code
  | none => .logFatal err

/-- `c.Run()`. -/
def Run (w : World) (c : Cmd) : Option (Outcome (Option Error)) :=
  match initCmd w c with
  | none => none
  | some cmd =>
    match run w 0 c cmd with
    | none => none
    | some res =>
      match res.err with
      | some err => if c.errexit then some (exitForError err) else some (.returned (some err))
      | none => some (.returned none)

/-- `c.Text()`. -/
def Text (w : World) (c : Cmd) : Option (Outcome (GoString × Option Error)) :=
  match initCmd w c with
  | none => none
  | some cmd =>
    let cmd := { cmd with Stdout := some .buffer }
    match run w 0 c cmd with
    | none => none
    | some res =>
      match res.err with
      | some err =>
        if c.errexit then some (exitForError err)
        else some (.returned (TrimSpace res.stdout, some err))
      | none => some (.returned (TrimSpace res.stdout, none))

/-- `c.Successful()`. -/
def Successful (w : World) (c : Cmd) : Option (Outcome (Bool × Option Error)) :=
  match initCmd w c with
  | none => none
  | some cmd =>
    match run w 0 c cmd with
    | none => none
    | some res =>
      match res.err with
      | none => some (.returned (true, none))
      | some err =>
        match err.asExitError with
        | some _ => some (.returned (false, none))
        | none => if c.errexit then some (exitForError err) else some (.returned (false, some err))

/-- The outcome of an extractor with its returned value changed by `f`. -/
def Outcome.map {α β : Type} (f : α → β) : Outcome α → Outcome β
  | .returned value => .returned (f value)
  | .osExit code => .osExit code
  | .logFatal err => .logFatal err

/-! ## Descriptors and traces: vocabulary of the statements -/

/-- Number of stages of the pipeline that ends in `c`. -/
def Cmd.length : Cmd → Nat
  | .mk none _ _ _ _ _ _ => 1
  | .mk (some p) _ _ _ _ _ _ => p.length + 1

/-- The invariant of descriptors: in every stage the argument vector is not
empty and every stored override contains `=`. -/
def Cmd.wellFormed : Cmd → Bool
  | .mk none a e _ _ _ _ => !a.isEmpty && e.all (fun env => env.contains '=')
  | .mk (some p) a e _ _ _ _ => !a.isEmpty && e.all (fun env => env.contains '=') && p.wellFormed

/-- Is the event a call of `c.cmd.Run()`? -/
def Event.isExec : Event → Bool
  | .exec _ _ => true
  | _ => false

/-- Is the event a call of `log.Print`? -/
def Event.isPrint : Event → Bool
  | .print _ => true
  | _ => false

/-- The error of the own process of a stage, read off the events of the stage:
what its call of `c.cmd.Run()` returned (`none` also when there was no call). -/
def ownErr : List Event → Option Error
  | [] => none
  | .exec _ err :: _ => err
  | _ :: rest => ownErr rest

/-- The events of a stage end with its one call of `c.cmd.Run()`, made as
stage `k` of the world `w`. -/
def StageRan (w : World) (k : Nat) (t : List Event) : Prop :=
  ∃ before cmd, t = before ++ [Event.exec cmd (w.cmdRun k cmd).err] ∧
    ∀ ev ∈ before, ev.isExec = false

/-- The first error in a list of outcomes. -/
def firstErr : List (Option Error) → Option Error
  | [] => none
  | some err :: _ => some err
  | none :: rest => firstErr rest

/-- The entry that `Env(name, value)` stores. -/
def envEntry (call : GoString × GoString) : GoString :=
  call.1 ++ ['='] ++ call.2

/-- What one call `Env(name, value)` contributes to the trace line:
`name=`, the quoted value, one space. -/
def tracePiece (w : World) (call : GoString × GoString) : GoString :=
  call.1 ++ ['='] ++ w.quote call.2 ++ [' ']

/-- The trace line as the specification words it: `+ `, the contributions of
the `Env` calls in call order, the quoted arguments separated by single spaces. -/
def traceLine (w : World) (calls : List (GoString × GoString)) (args : List GoString) : GoString :=
  ['+', ' '] ++ (calls.map (tracePiece w)).foldr (fun piece rest => piece ++ rest) [] ++
    [' '].intercalate (args.map w.quote)

/-- The `exec.Cmd` on which stage `i` calls `Run()`, when `run` was entered
with `cmd` as `c.cmd`: the stream defaults, then the read end of the pipe as
stdin when there is an upstream. -/
def ownCmd (i : Nat) (c : Cmd) (cmd : ExecCmd) : ExecCmd :=
  match c.parent with
  | none => bindDefaults c cmd
  | some _ => { bindDefaults c cmd with Stdin := some (.pipeRead i) }

/-- The `exec.Cmd` with which the goroutine spawned by stage `i` enters `run`
on the upstream `p`: `p.initCmd()`, then the write end of the pipe as stdout. -/
def parentCmd (w : World) (i : Nat) (p : Cmd) : Option ExecCmd :=
  (initCmd w p).map fun pcmd => { pcmd with Stdout := some (.pipeWrite i) }

/-- The descriptor with the ErrExit flag of every stage replaced: this stage
gets `flags k`, its upstream `flags (k + 1)`, and so on. -/
def Cmd.setErrExit (flags : Nat → Bool) : Nat → Cmd → Cmd
  | k, .mk none a e d _ o r => .mk none a e d (flags k) o r
  | k, .mk (some p) a e d _ o r => .mk (some (setErrExit flags (k + 1) p)) a e d (flags k) o r

/-- The descriptor with the ErrExit flags of all its upstream stages replaced
by `flags` and its own flag kept. -/
def Cmd.setUpstreamErrExit (flags : Nat → Bool) : Cmd → Cmd
  | .mk none a e d x o r => .mk none a e d x o r
  | .mk (some p) a e d x o r => .mk (some (p.setErrExit flags 0)) a e d x o r

/-! ## Builder calls -/

/-- One call of a builder method on an existing descriptor. -/
inductive Op where
  | env (name value : GoString)
  | debug
  | errExit
  | noStdout
  | noStderr
  | noOutput
deriving DecidableEq, Repr

/-- The descriptor after one builder call. -/
def Cmd.apply (c : Cmd) : Op → Cmd
  | .env name value => c.Env name value
  | .debug => c.Debug
  | .errExit => c.ErrExit
  | .noStdout => c.NoStdout
  | .noStderr => c.NoStderr
  | .noOutput => c.NoOutput

/-- The descriptor after a sequence of builder calls, in call order. -/
def Cmd.applyAll (c : Cmd) (ops : List Op) : Cmd :=
  ops.foldl Cmd.apply c

/-- A new descriptor: `Command(args...)`, or `up.Pipe(args...)` on an existing one. -/
def newCmd (up : Option Cmd) (args : List GoString) : Cmd :=
  match up with
  | none => Command args
  | some p => p.Pipe args

/-- The `Env(name, value)` calls among a sequence of builder calls, in call order. -/
def envCalls : List Op → List (GoString × GoString)
  | [] => []
  | .env name value :: ops => (name, value) :: envCalls ops
  | _ :: ops => envCalls ops

/-- Is `Debug()` among the builder calls? -/
def debugCalled (ops : List Op) : Bool :=
  ops.contains .debug

/-- The value given by the latest call `Env(name, _)`, if there is one. -/
def lastCall (calls : List (GoString × GoString)) (name : GoString) : Option GoString :=
  (calls.reverse.find? fun call => call.1 == name).map fun call => call.2

/-- Last-entry-wins lookup of a variable in an environment block: every entry
is split at its first `=`, and the last entry whose name is `name` gives the
value; entries without `=` are skipped. -/
def lookupEnv (env : List GoString) (name : GoString) : Option GoString :=
  env.foldl
    (fun found entry =>
      match splitN2 entry with
      | [key, value] => if key = name then some value else found
      | _ => found)
    none

/-- A descriptor as the builder makes it: `Command(args...)` or
`up.Pipe(args...)`, each followed by builder calls on the new descriptor. -/
inductive Build where
  | command (args : List GoString) (ops : List Op)
  | pipe (up : Build) (args : List GoString) (ops : List Op)
deriving Repr

/-- The descriptor that a construction yields. -/
def Build.eval : Build → Cmd
  | .command args ops => (Command args).applyAll ops
  | .pipe up args ops => (up.eval.Pipe args).applyAll ops

/-- Every call of `Command` and `Pipe` in the construction got at least one argument. -/
def Build.argsGiven : Build → Bool
  | .command args _ => !args.isEmpty
  | .pipe up args _ => !args.isEmpty && up.argsGiven

/-- The stages of a pipeline, from the invoked stage towards the head. -/
def Cmd.stages : Cmd → List Cmd
  | .mk none a e d x o r => [.mk none a e d x o r]
  | .mk (some p) a e d x o r => .mk (some p) a e d x o r :: p.stages

/-! ## Stream bindings as the specification words them -/

/-- Stdin of stage `k` as specified: the read end of the pipe that the stage
allocates when it has an upstream, the stdin of the program otherwise. -/
def specStdin (s : Cmd) (k : Nat) : Option Handle :=
  if s.parent.isSome then some (.pipeRead k) else some .osStdin

/-- Stdout of stage `k` as specified: the write end of the pipe of its
downstream stage `k - 1` when it is an upstream; otherwise the buffer when the
extractor is `Text`; otherwise nothing (discarded) when NoStdout is set and the
stdout of the program when it is not. -/
def specStdout (s : Cmd) (k : Nat) (text : Bool) : Option Handle :=
  match k with
  | j + 1 => some (.pipeWrite j)
  | 0 => if text then some .buffer else if s.nostdout then none else some .osStdout

/-- Stderr of a stage as specified: nothing (discarded) when NoStderr is set,
the stderr of the program otherwise. -/
def specStderr (s : Cmd) : Option Handle :=
  if s.nostderr then none else some .osStderr

/-- The stdout with which stage `i + k` enters `run`, when stage `i` entered it
with `out0`: every upstream stage got the write end of the pipe of its
downstream stage from `startParent`. -/
def stdoutAt (out0 : Option Handle) (i : Nat) : Nat → Option Handle
  | 0 => out0
  | k + 1 => some (.pipeWrite (i + k))

/-- The stdout of the process of a stage that entered `run` with stdout `out0`:
`out0` when it is bound, else the default that `run` chooses. -/
def resolvedStdout (out0 : Option Handle) (s : Cmd) : Option Handle :=
  match out0 with
  | some h => some h
  | none => if s.nostdout then none else some .osStdout

/-- The events of stage `k` with descriptor `s`, which entered `run` with
stdout `out0`: nothing when its pipe could not be allocated; otherwise the pipe
set-up when it has an upstream, the trace line when tracing is on, and the call
of `c.cmd.Run()` on an `exec.Cmd` with the specified stdin and stderr. -/
def StageEvents (w : World) (k : Nat) (s : Cmd) (out0 : Option Handle) (t : List Event) : Prop :=
  (t = [] ∧ s.parent.isSome = true ∧ (w.osPipe k).isSome = true) ∨
  (∃ line ecmd,
    t = (if s.parent.isSome then [Event.pipe, Event.spawn] else []) ++
        (if s.debug then [Event.print line] else []) ++
        [Event.exec ecmd (w.cmdRun k ecmd).err] ∧
    (s.parent.isSome = true → w.osPipe k = none) ∧
    ecmd.Stdin = specStdin s k ∧
    ecmd.Stdout = resolvedStdout out0 s ∧
    ecmd.Stderr = specStderr s)

/-- Stdin, stdout and stderr of the process that an event starts. -/
def Event.streams : Event → Option (Option Handle × Option Handle × Option Handle)
  | .exec cmd _ => some (cmd.Stdin, cmd.Stdout, cmd.Stderr)
  | _ => none

/-! ## Interleavings of the goroutines

`run` lists what each stage does in the order of its own goroutine. The stage
whose extractor was called runs in the goroutine of the caller; the `go`
statement in `startParent` creates the goroutine of its upstream. A scheduler
lets the goroutines that exist step in any order. The operations on the channel
`parentErr` come after `c.cmd.Run()` has returned in both goroutines of a link,
so they order none of the steps below and are left out. -/

/-- One step of the goroutine of a stage. -/
inductive Step where
  /-- `os.Pipe()` returned a pipe; the upstream got `initCmd` and the write end
  as stdout, this stage the read end as stdin. -/
  | pipe
  /-- The `go` statement. -/
  | spawn
  /-- `log.Print(line)`. -/
  | print (line : GoString)
  /-- `c.cmd.Run()` is called and starts the process of `cmd`. -/
  | start (cmd : ExecCmd)
  /-- `c.cmd.Run()` returns `err`. -/
  | finish (err : Option Error)
deriving DecidableEq, Repr

/-- The steps of which an event consists: `c.cmd.Run()` starts the process and
later returns. -/
def Event.steps : Event → List Step
  | .pipe => [.pipe]
  | .spawn => [.spawn]
  | .print line => [.print line]
  | .exec cmd err => [.start cmd, .finish err]

/-- The steps of the goroutine of a stage, from its events. -/
def stageSteps : List Event → List Step
  | [] => []
  | ev :: rest => ev.steps ++ stageSteps rest

/-- State of the pipeline under a scheduler. -/
structure Sched where
  /-- The goroutines of the stages `0`, ..., `live - 1` exist. -/
  live : Nat
  /-- The steps that each stage has still to take. -/
  rest : List (List Step)
  /-- The steps taken so far with the stage that took them, oldest first. -/
  taken : List (Nat × Step)
deriving DecidableEq, Repr

/-- The state in which the caller enters `run`: only its goroutine exists. -/
def Sched.init (trace : List (List Event)) : Sched :=
  { live := 1, rest := trace.map stageSteps, taken := [] }

/-- The goroutine of stage `k` takes its next step; `none` when the goroutine
does not exist or has no step left. The step `spawn` of stage `k` creates the
goroutine of stage `k + 1`. -/
def Sched.step (st : Sched) (k : Nat) : Option Sched :=
  if k < st.live then
    match st.rest[k]? with
    | some (x :: xs) =>
      some { live := if x = Step.spawn then max st.live (k + 2) else st.live,
             rest := st.rest.set k xs,
             taken := st.taken ++ [(k, x)] }
    | _ => none
  else none

/-- The scheduler lets the goroutines step in the order `picks`. -/
def Sched.exec (st : Sched) : List Nat → Option Sched
  | [] => some st
  | k :: picks =>
    match st.step k with
    | none => none
    | some st2 => st2.exec picks

/-- Has every goroutine taken all its steps? -/
def Sched.complete (st : Sched) : Bool :=
  st.rest.all List.isEmpty

/-- The schedule that lets every stage take all its steps before its upstream
takes any: stage `j` first, then stage `j + 1`, and so on. -/
def downstreamFirst : List (List Step) → Nat → List Nat
  | [], _ => []
  | t :: ts, j => List.replicate t.length j ++ downstreamFirst ts (j + 1)

/-- The name of a step, without what it carries. -/
def Step.kind : Step → String
  | .pipe => "pipe"
  | .spawn => "spawn"
  | .print _ => "print"
  | .start _ => "start"
  | .finish _ => "finish"

/-- What holds in every state that the scheduler reaches from the steps
`threads`: what a stage has still to take is the tail of its steps and the head
was taken; an upstream goroutine exists only after the `spawn` of its
downstream stage; and every step taken comes after the steps that precede it
in its own goroutine and, for an upstream stage, after the `spawn` of its
downstream stage. -/
def Sched.Inv (threads : List (List Step)) (st : Sched) : Prop :=
  (∀ k r, st.rest[k]? = some r →
    ∃ pre, threads[k]? = some (pre ++ r) ∧ ∀ y ∈ pre, (k, y) ∈ st.taken) ∧
  (∀ j, j + 1 < st.live → (j, Step.spawn) ∈ st.taken) ∧
  (∀ s1 k x s2, st.taken = s1 ++ (k, x) :: s2 →
    (∀ j, k = j + 1 → (j, Step.spawn) ∈ s1) ∧
    ∃ pre r, threads[k]? = some (pre ++ x :: r) ∧ ∀ y ∈ pre, (k, y) ∈ s1)

/-- The steps of the stages `j`, `j + 1`, ... one stage after the other, each
step with the number of its stage. -/
def tagged : List (List Step) → Nat → List (Nat × Step)
  | [], _ => []
  | t :: ts, j => t.map (fun x => (j, x)) ++ tagged ts (j + 1)

/-! ## Concrete descriptors and worlds -/

/-- A world in which every pipe is allocated and stage `i` ends with `errs i`,
writing `out` to its standard output. -/
def worldOf (errs : Nat → Option Error) (out : GoString) : World :=
  { environ := ["HOME=/root".toList, "X=0".toList], quote := id, osPipe := fun _ => none,
    cmdRun := fun i _ => ⟨out, errs i⟩ }

/-- A world whose quoting puts every word between `<` and `>`. -/
def worldQuoting : World :=
  { environ := [], quote := fun word => ['<'] ++ word ++ ['>'], osPipe := fun _ => none,
    cmdRun := fun _ _ => ⟨[], none⟩ }

/-- A world in which the call of `os.Pipe()` by stage 0 fails. -/
def worldNoPipe : World :=
  { environ := [], quote := id,
    osPipe := fun i => if i = 0 then some (.pipe "too many open files".toList) else none,
    cmdRun := fun _ _ => ⟨[], none⟩ }

/-- `Command("a")`. -/
def stageA : Cmd := Command ["a".toList]

/-- `Command("a").Pipe("b")`. -/
def pipelineAB : Cmd := stageA.Pipe ["b".toList]

/-- `Command("a").Pipe("b").Pipe("c")`. -/
def pipelineABC : Cmd := pipelineAB.Pipe ["c".toList]

/-- Only the head of the pipeline fails, with exit code 7. -/
def onlyHeadFails : Nat → Option Error :=
  fun i => if i = 2 then some (.exit 7) else none

/-- The upstream of a two-stage pipeline exits with 7, the downstream with 0. -/
def onlyHeadFails7 : Nat → Option Error :=
  fun i => if i = 1 then some (.exit 7) else none

/-- `Command("a").ErrExit().Pipe("b").ErrExit()`. -/
def pipelineABErrExit : Cmd := (stageA.ErrExit.Pipe ["b".toList]).ErrExit

/-- The upstream of a two-stage pipeline exits with 3, the downstream with 0. -/
def onlyHeadFails3 : Nat → Option Error :=
  fun i => if i = 1 then some (.exit 3) else none

/-- Every stage exits with 0. -/
def allSucceed : Nat → Option Error :=
  fun _ => none

/-- `Command("a").NoOutput().Pipe("b").NoStdout()`. -/
def pipelineQuiet : Cmd := (stageA.NoOutput.Pipe ["b".toList]).NoStdout

/-- The upstream of a two-stage pipeline cannot be started, the downstream exits with 2. -/
def startFailsExit2 : Nat → Option Error :=
  fun i => if i = 1 then some (.start "exec: not found".toList) else some (.exit 2)

/-- The upstream of a two-stage pipeline cannot be started, the downstream exits with 0. -/
def startFailsExit0 : Nat → Option Error :=
  fun i => if i = 1 then some (.start "exec: not found".toList) else none

end Shelley

namespace Shelley

theorem run_root (w : World) (i : Nat) (a e : List GoString) (d x o r : Bool) (cmd : ExecCmd) :
    run w i (.mk none a e d x o r) cmd =
      runOwn w i (.mk none a e d x o r) (bindDefaults (.mk none a e d x o r) cmd) [] none [] := by
  simp [run, startParent, Cmd.parent]

theorem run_piped (w : World) (i : Nat) (p : Cmd) (a e : List GoString) (d x o r : Bool)
    (cmd : ExecCmd) :
    run w i (.mk (some p) a e d x o r) cmd =
      match w.osPipe i with
      | some err => some ⟨some err, [], [[]]⟩
      | none =>
        match initCmd w p with
        | none => none
        | some pcmd =>
          match run w (i + 1) p { pcmd with Stdout := some (.pipeWrite i) } with
          | none => none
          | some up =>
            runOwn w i (.mk (some p) a e d x o r)
              { bindDefaults (.mk (some p) a e d x o r) cmd with Stdin := some (.pipeRead i) }
              [.pipe, .spawn] up.err up.trace := by
  rw [run]
  simp only [startParent, Cmd.parent]
  cases w.osPipe i with
  | some err => simp
  | none =>
    cases initCmd w p with
    | none => simp
    | some pcmd => simp

/-! ### Library lemmas -/

theorem shellquoteJoin_single (q : GoString → GoString) (v : GoString) :
    shellquoteJoin q [v] = q v := by
  simp [shellquoteJoin, List.intercalate]

theorem span_noEq (name rest : GoString) (h : '=' ∉ name) :
    (name ++ '=' :: rest).span (fun ch => ch != '=') = (name, '=' :: rest) := by
  induction name with
  | nil => simp [List.span, List.span.loop]
  | cons ch name ih =>
    have hch : ch ≠ '=' := fun hc => h (by simp [hc])
    have hn : '=' ∉ name := fun hc => h (by simp [hc])
    rw [List.span_eq_take_drop] at ih ⊢
    have ih' := ih hn
    simp only [Prod.mk.injEq] at ih'
    have hb : (ch != '=') = true := by simpa using hch
    simp [List.takeWhile, List.dropWhile, hb, ih'.1, ih'.2]

theorem splitN2_append (name value : GoString) (h : '=' ∉ name) :
    splitN2 (name ++ ['='] ++ value) = [name, value] := by
  have := span_noEq name value h
  simp only [List.append_assoc, List.singleton_append]
  unfold splitN2
  rw [this]

theorem exists_split_of_contains (env : GoString) (h : env.contains '=' = true) :
    ∃ name value, env = name ++ ['='] ++ value ∧ '=' ∉ name := by
  induction env with
  | nil => simp at h
  | cons ch env ih =>
    by_cases hch : ch = '='
    · exact ⟨[], env, by simp [hch], by simp⟩
    · have h' : env.contains '=' = true := by
        simp only [List.contains, List.elem_cons] at h ⊢
        have : ('=' == ch) = false := by
          simp only [beq_eq_false_iff_ne, ne_eq]
          exact fun hc => hch hc.symm
        simpa [this] using h
      obtain ⟨name, value, he, hn⟩ := ih h'
      refine ⟨ch :: name, value, by simp [he], ?_⟩
      intro hc
      rcases List.mem_cons.mp hc with hc | hc
      · exact hch hc.symm
      · exact hn hc

theorem exists_calls_of_contains (envs : List GoString)
    (h : envs.all (fun env => env.contains '=') = true) :
    ∃ calls : List (GoString × GoString),
      envs = calls.map envEntry ∧ ∀ call ∈ calls, '=' ∉ call.1 := by
  induction envs with
  | nil => exact ⟨[], rfl, by simp⟩
  | cons env envs ih =>
    simp only [List.all_cons, Bool.and_eq_true] at h
    obtain ⟨calls, he, hc⟩ := ih h.2
    obtain ⟨name, value, hs, hn⟩ := exists_split_of_contains env h.1
    refine ⟨(name, value) :: calls, by simp [envEntry, hs, he], ?_⟩
    intro call hcall
    rcases List.mem_cons.mp hcall with hcall | hcall
    · simpa [hcall] using hn
    · exact hc call hcall

/-! ### logDebug -/

theorem foldl_envStringStep (w : World) (calls : List (GoString × GoString))
    (hc : ∀ call ∈ calls, '=' ∉ call.1) (acc : GoString) :
    (calls.map envEntry).foldl (envStringStep w) (some acc) =
      some (acc ++ (calls.map (tracePiece w)).foldr (fun piece rest => piece ++ rest) []) := by
  induction calls generalizing acc with
  | nil => simp
  | cons call calls ih =>
    have h1 : '=' ∉ call.1 := hc call (by simp)
    have h2 : ∀ call ∈ calls, '=' ∉ call.1 := fun x hx => hc x (by simp [hx])
    have hs : splitN2 (envEntry call) = [call.1, call.2] := splitN2_append call.1 call.2 h1
    simp only [List.map_cons, List.foldl_cons, List.foldr_cons]
    have hstep : envStringStep w (some acc) (envEntry call) =
        some (acc ++ tracePiece w call) := by
      simp [envStringStep, hs, shellquoteJoin_single, tracePiece]
    rw [hstep, ih h2]
    simp

theorem logDebug_calls (w : World) (c : Cmd) (calls : List (GoString × GoString))
    (he : c.envs = calls.map envEntry) (hc : ∀ call ∈ calls, '=' ∉ call.1) :
    logDebug w c = some (traceLine w calls c.args) := by
  simp [logDebug, he, foldl_envStringStep w calls hc, traceLine, shellquoteJoin]

theorem logDebug_isSome (w : World) (c : Cmd)
    (h : c.envs.all (fun env => env.contains '=') = true) :
    ∃ line, logDebug w c = some line := by
  obtain ⟨calls, he, hc⟩ := exists_calls_of_contains c.envs h
  exact ⟨_, logDebug_calls w c calls he hc⟩

/-! ### run -/

theorem runOwn_eq (w : World) (i : Nat) (c : Cmd) (cmd : ExecCmd) (before : List Event)
    (perr : Option Error) (upstream : List (List Event)) (line : GoString)
    (hl : logDebug w c = some line) :
    runOwn w i c cmd before perr upstream =
      some ⟨(match (w.cmdRun i cmd).err with
              | some err => some err
              | none => perr),
            (if cmd.Stdout = some .buffer then (w.cmdRun i cmd).stdout else []),
            (before ++ (if c.debug then [Event.print line] else []) ++
              [Event.exec cmd (w.cmdRun i cmd).err]) :: upstream⟩ := by
  unfold runOwn
  rw [hl]
  cases hd : c.debug <;> cases perr <;> cases ho : (w.cmdRun i cmd).err <;> simp [ho]

theorem firstErr_eq_none (l : List (Option Error)) :
    firstErr l = none ↔ ∀ o ∈ l, o = none := by
  induction l with
  | nil => simp [firstErr]
  | cons o l ih =>
    cases o with
    | none => simp [firstErr, ih]
    | some err => simp [firstErr]

theorem ownErr_append_exec (before : List Event) (cmd : ExecCmd) (err : Option Error)
    (h : ∀ ev ∈ before, ev.isExec = false) :
    ownErr (before ++ [Event.exec cmd err]) = err := by
  induction before with
  | nil => simp [ownErr]
  | cons ev before ih =>
    have h1 : ev.isExec = false := h ev (by simp)
    have h2 : ∀ ev ∈ before, ev.isExec = false := fun x hx => h x (by simp [hx])
    cases ev with
    | exec c e => simp [Event.isExec] at h1
    | pipe => simpa [ownErr] using ih h2
    | spawn => simpa [ownErr] using ih h2
    | print line => simpa [ownErr] using ih h2

theorem wellFormed_envs (c : Cmd) (h : c.wellFormed = true) :
    c.envs.all (fun env => env.contains '=') = true := by
  cases c with
  | mk p a e d x o r =>
    cases p with
    | none =>
      simp only [Cmd.wellFormed, Bool.and_eq_true] at h
      exact h.2
    | some p =>
      simp only [Cmd.wellFormed, Bool.and_eq_true] at h
      exact h.1.2

theorem wellFormed_args (c : Cmd) (h : c.wellFormed = true) : c.args ≠ [] := by
  cases c with
  | mk p a e d x o r =>
    cases p with
    | none =>
      simp only [Cmd.wellFormed, Bool.and_eq_true] at h
      simpa [Cmd.args] using h.1
    | some p =>
      simp only [Cmd.wellFormed, Bool.and_eq_true] at h
      simpa [Cmd.args] using h.1.1

theorem initCmd_wellFormed (w : World) (c : Cmd) (h : c.wellFormed = true) :
    ∃ cmd, initCmd w c = some cmd ∧ cmd.Env = w.environ ++ c.envs ∧ cmd.Args = c.args ∧
      cmd.Stdin = none ∧ cmd.Stdout = none ∧ cmd.Stderr = none := by
  have ha := wellFormed_args c h
  unfold initCmd
  cases hargs : c.args with
  | nil => exact absurd hargs ha
  | cons name arg => exact ⟨_, rfl, rfl, rfl, rfl, rfl, rfl⟩

theorem noExec_plumbing (before : List Event) (dbg : Bool) (line : GoString)
    (hb : ∀ ev ∈ before, ev.isExec = false) :
    ∀ ev ∈ before ++ (if dbg then [Event.print line] else []), ev.isExec = false := by
  intro ev hev
  rcases List.mem_append.mp hev with hev | hev
  · exact hb ev hev
  · cases dbg <;> simp_all [Event.isExec]

/-- Pipefail reconciliation, by recursion over the chain of upstream stages. -/
theorem run_chain (w : World) (hpipes : ∀ k, w.osPipe k = none) :
    ∀ (c : Cmd) (i : Nat) (cmd : ExecCmd), c.wellFormed = true →
      ∃ res, run w i c cmd = some res ∧ res.trace.length = c.length ∧
        (∀ k t, res.trace[k]? = some t → StageRan w (i + k) t) ∧
        res.err = firstErr (res.trace.map ownErr)
  | .mk none a e d x o r, i, cmd, hwf => by
    obtain ⟨line, hl⟩ := logDebug_isSome w _ (wellFormed_envs _ hwf)
    rw [run_root, runOwn_eq w i _ _ [] none [] line hl]
    have hb := noExec_plumbing [] (Cmd.mk none a e d x o r).debug line (by simp)
    refine ⟨_, rfl, by simp [Cmd.length], ?_, ?_⟩
    · intro k t hk
      cases k with
      | zero =>
        simp only [List.getElem?_cons_zero, Option.some.injEq] at hk
        subst hk
        exact ⟨_, _, rfl, hb⟩
      | succ k => simp at hk
    · simp only [List.map_cons, List.map_nil]
      rw [ownErr_append_exec _ _ _ hb]
      cases (w.cmdRun i (bindDefaults (.mk none a e d x o r) cmd)).err <;> simp [firstErr]
  | .mk (some p) a e d x o r, i, cmd, hwf => by
    have hp : p.wellFormed = true := by
      simp only [Cmd.wellFormed, Bool.and_eq_true] at hwf
      exact hwf.2
    obtain ⟨line, hl⟩ := logDebug_isSome w _ (wellFormed_envs _ hwf)
    obtain ⟨pcmd, hpcmd, -⟩ := initCmd_wellFormed w p hp
    obtain ⟨up, hup, hlen, hstages, herr⟩ :=
      run_chain w hpipes p (i + 1) { pcmd with Stdout := some (.pipeWrite i) } hp
    rw [run_piped, hpipes i, hpcmd]
    simp only [hup]
    rw [runOwn_eq w i _ _ [.pipe, .spawn] up.err up.trace line hl]
    have hb := noExec_plumbing [Event.pipe, Event.spawn] (Cmd.mk (some p) a e d x o r).debug line
      (by simp [Event.isExec])
    refine ⟨_, rfl, by simp [Cmd.length, hlen], ?_, ?_⟩
    · intro k t hk
      cases k with
      | zero =>
        simp only [List.getElem?_cons_zero, Option.some.injEq] at hk
        subst hk
        exact ⟨_, _, rfl, hb⟩
      | succ k =>
        simp only [List.getElem?_cons_succ] at hk
        have := hstages k t hk
        rwa [Nat.add_assoc, Nat.add_comm 1 k] at this
    · simp only [List.map_cons]
      rw [ownErr_append_exec _ _ _ hb, herr]
      cases (w.cmdRun i
        { bindDefaults (.mk (some p) a e d x o r) cmd with Stdin := some (.pipeRead i) }).err <;>
        simp [firstErr]

/-- The engine returns on every well-formed descriptor, whatever the world does. -/
theorem run_total (w : World) :
    ∀ (c : Cmd) (i : Nat) (cmd : ExecCmd), c.wellFormed = true → ∃ res, run w i c cmd = some res
  | .mk none a e d x o r, i, cmd, hwf => by
    obtain ⟨line, hl⟩ := logDebug_isSome w _ (wellFormed_envs _ hwf)
    rw [run_root, runOwn_eq w i _ _ [] none [] line hl]
    exact ⟨_, rfl⟩
  | .mk (some p) a e d x o r, i, cmd, hwf => by
    have hp : p.wellFormed = true := by
      simp only [Cmd.wellFormed, Bool.and_eq_true] at hwf
      exact hwf.2
    obtain ⟨line, hl⟩ := logDebug_isSome w _ (wellFormed_envs _ hwf)
    obtain ⟨pcmd, hpcmd, -⟩ := initCmd_wellFormed w p hp
    obtain ⟨up, hup⟩ := run_total w p (i + 1) { pcmd with Stdout := some (.pipeWrite i) } hp
    rw [run_piped]
    cases hpipe : w.osPipe i with
    | some err => exact ⟨_, rfl⟩
    | none =>
      simp only [hpcmd, hup]
      rw [runOwn_eq w i _ _ [.pipe, .spawn] up.err up.trace line hl]
      exact ⟨_, rfl⟩

/-- A stage without upstream: its events and its result. -/
theorem run_root_eq (w : World) (c : Cmd) (i : Nat) (cmd : ExecCmd) (line : GoString)
    (hp : c.parent = none) (hl : logDebug w c = some line) :
    run w i c cmd =
      some ⟨(w.cmdRun i (ownCmd i c cmd)).err,
        (if (ownCmd i c cmd).Stdout = some .buffer then (w.cmdRun i (ownCmd i c cmd)).stdout else []),
        [(if c.debug then [Event.print line] else []) ++
          [Event.exec (ownCmd i c cmd) (w.cmdRun i (ownCmd i c cmd)).err]]⟩ := by
  cases c with
  | mk p a e d x o r =>
    simp only [Cmd.parent] at hp
    subst hp
    rw [run_root, runOwn_eq w i _ _ [] none [] line hl]
    simp only [ownCmd, Cmd.parent, List.nil_append]
    cases (w.cmdRun i (bindDefaults (.mk none a e d x o r) cmd)).err <;> rfl

/-- A stage with an upstream whose pipe could not be allocated. -/
theorem run_pipe_failed (w : World) (c p : Cmd) (i : Nat) (cmd : ExecCmd) (err : Error)
    (hp : c.parent = some p) (hpipe : w.osPipe i = some err) :
    run w i c cmd = some ⟨some err, [], [[]]⟩ := by
  cases c with
  | mk q a e d x o r =>
    simp only [Cmd.parent] at hp
    subst hp
    rw [run_piped, hpipe]

/-- One link of a pipeline: the events of the downstream stage, and its result,
which is its own error when it has one and the result of the upstream otherwise. -/
theorem run_link (w : World) (c p : Cmd) (i : Nat) (cmd pcmd : ExecCmd) (up : RunResult)
    (line : GoString) (hp : c.parent = some p) (hpipe : w.osPipe i = none)
    (hpcmd : parentCmd w i p = some pcmd) (hup : run w (i + 1) p pcmd = some up)
    (hl : logDebug w c = some line) :
    run w i c cmd =
      some ⟨(match (w.cmdRun i (ownCmd i c cmd)).err with
              | some err => some err
              | none => up.err),
        (if (ownCmd i c cmd).Stdout = some .buffer then (w.cmdRun i (ownCmd i c cmd)).stdout else []),
        ([Event.pipe, Event.spawn] ++ (if c.debug then [Event.print line] else []) ++
          [Event.exec (ownCmd i c cmd) (w.cmdRun i (ownCmd i c cmd)).err]) :: up.trace⟩ := by
  cases c with
  | mk q a e d x o r =>
    simp only [Cmd.parent] at hp
    subst hp
    unfold parentCmd at hpcmd
    cases hq : initCmd w p with
    | none => simp [hq] at hpcmd
    | some qcmd =>
      simp only [hq, Option.map_some', Option.some.injEq] at hpcmd
      subst hpcmd
      rw [run_piped, hpipe]
      simp only [hq, hup]
      rw [runOwn_eq w i _ _ [.pipe, .spawn] up.err up.trace line hl]
      simp only [ownCmd, Cmd.parent]

/-! ## Pipefail reconciliation -/

/-- C1. Pipefail reconciliation. On every well-formed pipeline whose pipes are
all allocated, `run` returns; every stage ran its process exactly once (one
list of events per stage, each ending in its call of `c.cmd.Run()`); the result
is the own error of the most-downstream stage whose process returned one; it
is success exactly when no stage returned an error; and at a link `U | D` the
result is the own error of `D` when there is one and the result of `run` on `U`
otherwise. -/
theorem run_pipefail (w : World) (c : Cmd) (i : Nat) (cmd : ExecCmd)
    (hwf : c.wellFormed = true) (hpipes : ∀ k, w.osPipe k = none) :
    ∃ res, run w i c cmd = some res ∧
      res.trace.length = c.length ∧
      (∀ k t, res.trace[k]? = some t → StageRan w (i + k) t) ∧
      res.err = firstErr (res.trace.map ownErr) ∧
      (res.err = none ↔ ∀ t ∈ res.trace, ownErr t = none) ∧
      (∀ p, c.parent = some p →
        ∃ pcmd up, parentCmd w i p = some pcmd ∧ run w (i + 1) p pcmd = some up ∧
          res.err = match (w.cmdRun i (ownCmd i c cmd)).err with
            | some err => some err
            | none => up.err) := by
  obtain ⟨res, hres, hlen, hstages, herr⟩ := run_chain w hpipes c i cmd hwf
  refine ⟨res, hres, hlen, hstages, herr, ?_, ?_⟩
  · rw [herr, firstErr_eq_none]
    simp
  · intro p hp
    have hpwf : p.wellFormed = true := by
      cases c with
      | mk q a e d x o r =>
        simp only [Cmd.parent] at hp
        subst hp
        simp only [Cmd.wellFormed, Bool.and_eq_true] at hwf
        exact hwf.2
    obtain ⟨pcmd0, hpcmd0, -⟩ := initCmd_wellFormed w p hpwf
    have hpcmd : parentCmd w i p = some { pcmd0 with Stdout := some (.pipeWrite i) } := by
      simp [parentCmd, hpcmd0]
    obtain ⟨up, hup⟩ := run_total w p (i + 1) { pcmd0 with Stdout := some (.pipeWrite i) } hpwf
    obtain ⟨line, hl⟩ := logDebug_isSome w c (wellFormed_envs c hwf)
    have hlink := run_link w c p i cmd _ up line hp (hpipes i) hpcmd hup hl
    rw [hres] at hlink
    refine ⟨_, up, hpcmd, hup, ?_⟩
    have := congrArg RunResult.err (Option.some.inj hlink)
    simpa using this

/-- C1, at `a | b | c` where only `a` fails (exit code 7): the result at `c`
is the error of `a`. -/
theorem run_pipefail_witness :
    pipelineABC.wellFormed = true ∧ (∀ k, (worldOf onlyHeadFails []).osPipe k = none) ∧
    (∃ res, run (worldOf onlyHeadFails []) 0 pipelineABC (execCommand ['c'] []) = some res ∧
      res.trace.length = pipelineABC.length ∧
      (∀ k t, res.trace[k]? = some t → StageRan (worldOf onlyHeadFails []) (0 + k) t) ∧
      res.err = firstErr (res.trace.map ownErr) ∧
      (res.err = none ↔ ∀ t ∈ res.trace, ownErr t = none) ∧
      (∀ p, pipelineABC.parent = some p →
        ∃ pcmd up, parentCmd (worldOf onlyHeadFails []) 0 p = some pcmd ∧
          run (worldOf onlyHeadFails []) (0 + 1) p pcmd = some up ∧
          res.err = match ((worldOf onlyHeadFails []).cmdRun 0
              (ownCmd 0 pipelineABC (execCommand ['c'] []))).err with
            | some err => some err
            | none => up.err)) ∧
    (run (worldOf onlyHeadFails []) 0 pipelineABC (execCommand ['c'] [])).map RunResult.err =
      some (some (.exit 7)) :=
  ⟨by decide, fun _ => rfl,
    run_pipefail (worldOf onlyHeadFails []) pipelineABC 0 (execCommand ['c'] []) (by decide)
      (fun _ => rfl),
    by decide⟩

/-- C2, as stated, fails: in `a | b` where `a` cannot be started and `b` exits
with 2, `Run` on `b` returns the exit error of `b`, not the start failure of `a`. -/
theorem Run_start_failure_counterexample :
    (∀ cmd, ((worldOf startFailsExit2 []).cmdRun 1 cmd).err =
      some (.start "exec: not found".toList)) ∧
    (worldOf startFailsExit2 []).osPipe 0 = none ∧
    Run (worldOf startFailsExit2 []) pipelineAB = some (.returned (some (.exit 2))) ∧
    Run (worldOf startFailsExit2 []) pipelineAB ≠
      some (.returned (some (.start "exec: not found".toList))) :=
  ⟨fun _ => rfl, rfl, by decide, by decide⟩

/-- C2, amended. In every pipeline `A | B` whose pipe is allocated and whose
upstream `A` fails to start, the result of the engine at `B` is the start
failure of `A` when the own process of `B` returned no error, and the own error
of `B` otherwise; `Run` returns this result when ErrExit is off at `B` and
terminates on it when ErrExit is on. -/
theorem Run_start_failure (w : World) (A B : Cmd) (cmdA cmdB : ExecCmd) (msg : GoString)
    (hA : A.parent = none) (hB : B.parent = some A) (hwf : B.wellFormed = true)
    (hpipe : w.osPipe 0 = none) (hcB : initCmd w B = some cmdB)
    (hcA : parentCmd w 0 A = some cmdA)
    (hstart : (w.cmdRun 1 (ownCmd 1 A cmdA)).err = some (.start msg)) :
    (∃ res, run w 0 B cmdB = some res ∧
      res.err = (match (w.cmdRun 0 (ownCmd 0 B cmdB)).err with
        | some err => some err
        | none => some (.start msg))) ∧
    Run w B = some (match (w.cmdRun 0 (ownCmd 0 B cmdB)).err with
      | some err => if B.errexit then exitForError err else .returned (some err)
      | none => if B.errexit then .logFatal (.start msg) else .returned (some (.start msg))) := by
  have hAwf : A.wellFormed = true := by
    cases B with
    | mk q a e d x o r =>
      simp only [Cmd.parent] at hB
      subst hB
      simp only [Cmd.wellFormed, Bool.and_eq_true] at hwf
      exact hwf.2
  obtain ⟨lineA, hlA⟩ := logDebug_isSome w A (wellFormed_envs A hAwf)
  obtain ⟨lineB, hlB⟩ := logDebug_isSome w B (wellFormed_envs B hwf)
  have hrunA := run_root_eq w A 1 cmdA lineA hA hlA
  have hrunB := run_link w B A 0 cmdB cmdA _ lineB hB hpipe hcA hrunA hlB
  constructor
  · refine ⟨_, hrunB, ?_⟩
    simp only [hstart]
  · unfold Run
    rw [hcB]
    simp only [hrunB, hstart]
    cases (w.cmdRun 0 (ownCmd 0 B cmdB)).err with
    | none => cases B.errexit <;> simp [exitForError, Error.asExitError]
    | some err => cases B.errexit <;> simp

/-- C2 amended, at `a | b` where `a` cannot be started and `b` exits with 0. -/
theorem Run_start_failure_witness :
    Run (worldOf startFailsExit0 []) pipelineAB =
      some (.returned (some (.start "exec: not found".toList))) :=
  (Run_start_failure (worldOf startFailsExit0 []) stageA pipelineAB
    { execCommand ['a'] [] with
      Env := (worldOf startFailsExit0 []).environ, Stdout := some (.pipeWrite 0) }
    { execCommand ['b'] [] with Env := (worldOf startFailsExit0 []).environ }
    "exec: not found".toList rfl rfl (by decide) rfl rfl rfl rfl).2

/-! ## Extractors and exit policy -/

theorem Run_eq (w : World) (c : Cmd) (cmd : ExecCmd) (res : RunResult)
    (hc : initCmd w c = some cmd) (hr : run w 0 c cmd = some res) :
    Run w c = some (match res.err with
      | some err => if c.errexit then exitForError err else .returned (some err)
      | none => .returned none) := by
  unfold Run
  simp only [hc, hr]
  cases res.err with
  | none => rfl
  | some err => cases c.errexit <;> rfl

theorem Text_eq (w : World) (c : Cmd) (cmd : ExecCmd) (res : RunResult)
    (hc : initCmd w c = some cmd)
    (hr : run w 0 c { cmd with Stdout := some .buffer } = some res) :
    Text w c = some (match res.err with
      | some err =>
        if c.errexit then exitForError err else .returned (TrimSpace res.stdout, some err)
      | none => .returned (TrimSpace res.stdout, none)) := by
  unfold Text
  simp only [hc, hr]
  cases res.err with
  | none => rfl
  | some err => cases c.errexit <;> rfl

theorem Successful_eq (w : World) (c : Cmd) (cmd : ExecCmd) (res : RunResult)
    (hc : initCmd w c = some cmd) (hr : run w 0 c cmd = some res) :
    Successful w c = some (match res.err with
      | none => .returned (true, none)
      | some err =>
        match err.asExitError with
        | some _ => .returned (false, none)
        | none => if c.errexit then exitForError err else .returned (false, some err)) := by
  unfold Successful
  simp only [hc, hr]
  cases res.err with
  | none => rfl
  | some err => cases err <;> cases c.errexit <;> rfl

/-- The engine returns under both `Run` and `Text` on a well-formed descriptor. -/
theorem engine_total (w : World) (c : Cmd) (hwf : c.wellFormed = true) :
    ∃ cmd res resT, initCmd w c = some cmd ∧ run w 0 c cmd = some res ∧
      run w 0 c { cmd with Stdout := some .buffer } = some resT := by
  obtain ⟨cmd, hc, -⟩ := initCmd_wellFormed w c hwf
  obtain ⟨res, hr⟩ := run_total w c 0 cmd hwf
  obtain ⟨resT, hrT⟩ := run_total w c 0 { cmd with Stdout := some .buffer } hwf
  exact ⟨cmd, res, resT, hc, hr, hrT⟩

/-- C3. Exit policy of `Run` and `Text`. On every well-formed descriptor the
engine returns a result (`res` under `Run`, `resT` under `Text`, whose stdout
is the buffer). With ErrExit on: a result that is an exit error with code `N`
ends the program by `os.Exit(N)`, exit status `N`; a result that is a start
failure or a pipe failure is logged and the program ends with status 1; no
error is ever returned to the caller. With ErrExit off the program is not
terminated and the result of the engine is returned as it is. -/
theorem Run_Text_exit_policy (w : World) (c : Cmd) (hwf : c.wellFormed = true) :
    ∃ cmd res resT out outT, initCmd w c = some cmd ∧ run w 0 c cmd = some res ∧
      run w 0 c { cmd with Stdout := some .buffer } = some resT ∧
      Run w c = some out ∧ Text w c = some outT ∧
      (c.errexit = true →
        (∀ N, res.err = some (.exit N) → out = .osExit N ∧ out.status = some N) ∧
        (∀ N, resT.err = some (.exit N) → outT = .osExit N ∧ outT.status = some N) ∧
        (∀ err, res.err = some err → err.asExitError = none →
          out = .logFatal err ∧ out.logged = some err ∧ out.status = some 1) ∧
        (∀ err, resT.err = some err → err.asExitError = none →
          outT = .logFatal err ∧ outT.logged = some err ∧ outT.status = some 1) ∧
        (∀ err, out ≠ .returned (some err)) ∧
        (∀ text err, outT ≠ .returned (text, some err))) ∧
      (c.errexit = false →
        out = .returned res.err ∧ out.status = none ∧
        outT = .returned (TrimSpace resT.stdout, resT.err) ∧ outT.status = none) := by
  obtain ⟨cmd, res, resT, hc, hr, hrT⟩ := engine_total w c hwf
  refine ⟨cmd, res, resT, _, _, hc, hr, hrT, Run_eq w c cmd res hc hr,
    Text_eq w c cmd resT hc hrT, ?_, ?_⟩
  · intro hx
    rw [hx]
    refine ⟨?_, ?_, ?_, ?_, ?_, ?_⟩
    · intro N hN
      simp [hN, exitForError, Error.asExitError, Outcome.status]
    · intro N hN
      simp [hN, exitForError, Error.asExitError, Outcome.status]
    · intro err he hne
      simp [he, exitForError, hne, Outcome.status, Outcome.logged]
    · intro err he hne
      simp [he, exitForError, hne, Outcome.status, Outcome.logged]
    · intro err
      cases hres : res.err with
      | none => simp
      | some e =>
        cases hne : e.asExitError <;> simp [exitForError, hne]
    · intro text err
      cases hres : resT.err with
      | none => simp
      | some e =>
        cases hne : e.asExitError <;> simp [exitForError, hne]
  · intro hx
    rw [hx]
    cases hres : res.err <;> cases hresT : resT.err <;> simp [Outcome.status]

/-- C3, at `a | b` with ErrExit on `b`, where `a` exits with 7 and `b` with 0:
`Run` and `Text` end the program with status 7. -/
theorem Run_Text_exit_policy_witness :
    pipelineAB.ErrExit.wellFormed = true ∧
    Run (worldOf onlyHeadFails7 []) pipelineAB.ErrExit = some (.osExit 7) ∧
    Text (worldOf onlyHeadFails7 []) pipelineAB.ErrExit = some (.osExit 7) ∧
    ∃ cmd res resT out outT, initCmd (worldOf onlyHeadFails7 []) pipelineAB.ErrExit = some cmd ∧
      run (worldOf onlyHeadFails7 []) 0 pipelineAB.ErrExit cmd = some res ∧
      run (worldOf onlyHeadFails7 []) 0 pipelineAB.ErrExit { cmd with Stdout := some .buffer } =
        some resT ∧
      Run (worldOf onlyHeadFails7 []) pipelineAB.ErrExit = some out ∧
      Text (worldOf onlyHeadFails7 []) pipelineAB.ErrExit = some outT ∧
      (pipelineAB.ErrExit.errexit = true →
        (∀ N, res.err = some (.exit N) → out = .osExit N ∧ out.status = some N) ∧
        (∀ N, resT.err = some (.exit N) → outT = .osExit N ∧ outT.status = some N) ∧
        (∀ err, res.err = some err → err.asExitError = none →
          out = .logFatal err ∧ out.logged = some err ∧ out.status = some 1) ∧
        (∀ err, resT.err = some err → err.asExitError = none →
          outT = .logFatal err ∧ outT.logged = some err ∧ outT.status = some 1) ∧
        (∀ err, out ≠ .returned (some err)) ∧
        (∀ text err, outT ≠ .returned (text, some err))) ∧
      (pipelineAB.ErrExit.errexit = false →
        out = .returned res.err ∧ out.status = none ∧
        outT = .returned (TrimSpace resT.stdout, resT.err) ∧ outT.status = none) :=
  ⟨by decide, by decide, by decide,
    Run_Text_exit_policy (worldOf onlyHeadFails7 []) pipelineAB.ErrExit (by decide)⟩

/-- C4, as stated, fails: in `a | b` with ErrExit on `b`, when `os.Pipe()`
fails the result of the engine is the pipe failure, which is no start failure
(no process was started at all), and `Successful` ends the program with
status 1. -/
theorem Successful_counterexample :
    (run worldNoPipe 0 pipelineAB.ErrExit (execCommand ['b'] [])).map RunResult.err =
      some (some (.pipe "too many open files".toList)) ∧
    (run worldNoPipe 0 pipelineAB.ErrExit (execCommand ['b'] [])).map RunResult.trace =
      some [[]] ∧
    Successful worldNoPipe pipelineAB.ErrExit =
      some (.logFatal (.pipe "too many open files".toList)) ∧
    (Successful worldNoPipe pipelineAB.ErrExit).map Outcome.status = some (some 1) := by
  decide

/-- C4, amended. On every well-formed descriptor `Successful` returns
`(true, nil)` exactly when the result of the engine is success; returns
`(false, nil)` whenever the result is an exit error, also one that came from an
upstream stage; for a result that is a start failure or a pipe failure it
returns `(false, err)` with ErrExit off and logs the error and ends the program
with status 1 with ErrExit on; and it ends the program in no other case, never
for an exit error. -/
theorem Successful_policy (w : World) (c : Cmd) (hwf : c.wellFormed = true) :
    ∃ cmd res out, initCmd w c = some cmd ∧ run w 0 c cmd = some res ∧
      Successful w c = some out ∧
      (out = .returned (true, none) ↔ res.err = none) ∧
      (∀ N, res.err = some (.exit N) → out = .returned (false, none)) ∧
      (∀ err, res.err = some err → (∃ msg, err = .start msg ∨ err = .pipe msg) →
        (c.errexit = false → out = .returned (false, some err)) ∧
        (c.errexit = true → out = .logFatal err ∧ out.logged = some err ∧ out.status = some 1)) ∧
      (out.status ≠ none ↔
        c.errexit = true ∧ ∃ msg, res.err = some (.start msg) ∨ res.err = some (.pipe msg)) := by
  obtain ⟨cmd, res, -, hc, hr, -⟩ := engine_total w c hwf
  refine ⟨cmd, res, _, hc, hr, Successful_eq w c cmd res hc hr, ?_, ?_, ?_, ?_⟩
  · cases hres : res.err with
    | none => simp
    | some err => cases err <;> cases c.errexit <;> simp [Error.asExitError, exitForError]
  · intro N hN
    simp [hN, Error.asExitError]
  · rintro err he ⟨msg, hm | hm⟩ <;> subst hm <;> cases c.errexit <;>
      simp [he, Error.asExitError, exitForError, Outcome.status, Outcome.logged]
  · cases hres : res.err with
    | none => simp [Outcome.status]
    | some err =>
      cases err <;> cases c.errexit <;>
        simp [Error.asExitError, exitForError, Outcome.status]

/-- C4 amended, at `a | b` with ErrExit on `b`, where `a` exits with 7 and `b`
with 0: `Successful` returns `(false, nil)` and the program goes on. -/
theorem Successful_policy_witness :
    pipelineAB.ErrExit.wellFormed = true ∧
    Successful (worldOf onlyHeadFails7 []) pipelineAB.ErrExit = some (.returned (false, none)) ∧
    ∃ cmd res out, initCmd (worldOf onlyHeadFails7 []) pipelineAB.ErrExit = some cmd ∧
      run (worldOf onlyHeadFails7 []) 0 pipelineAB.ErrExit cmd = some res ∧
      Successful (worldOf onlyHeadFails7 []) pipelineAB.ErrExit = some out ∧
      (out = .returned (true, none) ↔ res.err = none) ∧
      (∀ N, res.err = some (.exit N) → out = .returned (false, none)) ∧
      (∀ err, res.err = some err → (∃ msg, err = .start msg ∨ err = .pipe msg) →
        (pipelineAB.ErrExit.errexit = false → out = .returned (false, some err)) ∧
        (pipelineAB.ErrExit.errexit = true →
          out = .logFatal err ∧ out.logged = some err ∧ out.status = some 1)) ∧
      (out.status ≠ none ↔
        pipelineAB.ErrExit.errexit = true ∧
          ∃ msg, res.err = some (.start msg) ∨ res.err = some (.pipe msg)) :=
  ⟨by decide, by decide,
    Successful_policy (worldOf onlyHeadFails7 []) pipelineAB.ErrExit (by decide)⟩

/-! ## ErrExit of upstream stages -/

theorem initCmd_congr (w : World) (c c2 : Cmd) (ha : c.args = c2.args) (he : c.envs = c2.envs) :
    initCmd w c = initCmd w c2 := by
  simp [initCmd, ha, he]

theorem runOwn_congr (w : World) (i : Nat) (c c2 : Cmd) (cmd : ExecCmd) (before : List Event)
    (perr : Option Error) (upstream : List (List Event)) (ha : c.args = c2.args)
    (he : c.envs = c2.envs) (hd : c.debug = c2.debug) :
    runOwn w i c cmd before perr upstream = runOwn w i c2 cmd before perr upstream := by
  simp [runOwn, logDebug, ha, he, hd]

theorem setErrExit_fields (flags : Nat → Bool) (k : Nat) (c : Cmd) :
    (c.setErrExit flags k).args = c.args ∧ (c.setErrExit flags k).envs = c.envs ∧
      (c.setErrExit flags k).debug = c.debug ∧ (c.setErrExit flags k).nostdout = c.nostdout ∧
      (c.setErrExit flags k).nostderr = c.nostderr := by
  cases c with
  | mk p a e d x o r => cases p <;> simp [Cmd.setErrExit, Cmd.args, Cmd.envs, Cmd.debug,
      Cmd.nostdout, Cmd.nostderr]

/-- The engine does not read the ErrExit flag of any stage. -/
theorem run_setErrExit (w : World) (flags : Nat → Bool) :
    ∀ (c : Cmd) (k i : Nat) (cmd : ExecCmd), run w i (c.setErrExit flags k) cmd = run w i c cmd
  | .mk none a e d x o r, k, i, cmd => by
    simp only [Cmd.setErrExit, run_root]
    rw [runOwn_congr w i (.mk none a e d (flags k) o r) (.mk none a e d x o r) _ _ _ _ rfl rfl rfl]
    rfl
  | .mk (some p) a e d x o r, k, i, cmd => by
    simp only [Cmd.setErrExit, run_piped]
    have hinit : initCmd w (p.setErrExit flags (k + 1)) = initCmd w p :=
      initCmd_congr w _ _ (setErrExit_fields flags (k + 1) p).1 (setErrExit_fields flags (k + 1) p).2.1
    rw [hinit]
    cases w.osPipe i with
    | some err => rfl
    | none =>
      cases initCmd w p with
      | none => rfl
      | some pcmd =>
        simp only [run_setErrExit w flags p (k + 1) (i + 1)]
        cases run w (i + 1) p { pcmd with Stdout := some (.pipeWrite i) } with
        | none => rfl
        | some up =>
          simp only
          rw [runOwn_congr w i (.mk (some (p.setErrExit flags (k + 1))) a e d (flags k) o r)
            (.mk (some p) a e d x o r) _ _ _ _ rfl rfl rfl]
          rfl

theorem setUpstreamErrExit_fields (flags : Nat → Bool) (c : Cmd) :
    (c.setUpstreamErrExit flags).args = c.args ∧ (c.setUpstreamErrExit flags).envs = c.envs ∧
      (c.setUpstreamErrExit flags).errexit = c.errexit := by
  cases c with
  | mk p a e d x o r => cases p <;> simp [Cmd.setUpstreamErrExit, Cmd.args, Cmd.envs, Cmd.errexit]

theorem run_setUpstreamErrExit (w : World) (flags : Nat → Bool) (c : Cmd) (i : Nat)
    (cmd : ExecCmd) : run w i (c.setUpstreamErrExit flags) cmd = run w i c cmd := by
  cases c with
  | mk p a e d x o r =>
    cases p with
    | none => rfl
    | some p =>
      simp only [Cmd.setUpstreamErrExit, run_piped]
      have hinit : initCmd w (p.setErrExit flags 0) = initCmd w p :=
        initCmd_congr w _ _ (setErrExit_fields flags 0 p).1 (setErrExit_fields flags 0 p).2.1
      rw [hinit]
      cases w.osPipe i with
      | some err => rfl
      | none =>
        cases initCmd w p with
        | none => rfl
        | some pcmd =>
          simp only [run_setErrExit w flags p 0 (i + 1)]
          cases run w (i + 1) p { pcmd with Stdout := some (.pipeWrite i) } with
          | none => rfl
          | some up =>
            simp only
            rw [runOwn_congr w i (.mk (some (p.setErrExit flags 0)) a e d x o r)
              (.mk (some p) a e d x o r) _ _ _ _ rfl rfl rfl]
            rfl

/-- C5, as stated, fails: in `a | b` with ErrExit on both stages, where `a`
exits with 3 and `b` with 0, the exit error of `a` surfaces as the result at
`b`, and the extractor `Successful` returns `(false, nil)`: the program is not
terminated with status 3. -/
theorem ErrExit_at_final_counterexample :
    pipelineABErrExit.errexit = true ∧
    (run (worldOf onlyHeadFails3 []) 0 pipelineABErrExit (execCommand ['b'] [])).map
      RunResult.err = some (some (.exit 3)) ∧
    Successful (worldOf onlyHeadFails3 []) pipelineABErrExit = some (.returned (false, none)) ∧
    (Successful (worldOf onlyHeadFails3 []) pipelineABErrExit).map Outcome.status = some none := by
  decide

/-- C5, amended. The ErrExit flags of the upstream stages have no effect: with
any other choice `flags` for them, `Run`, `Text` and `Successful` end in the
same way. With ErrExit off at the final stage none of the three terminates the
program; with ErrExit on at the final stage and an exit error with code `N` as
the result, `Run` and `Text` terminate the program with status `N`, and
`Successful` returns `(false, nil)`. -/
theorem ErrExit_only_at_final (w : World) (c : Cmd) (flags : Nat → Bool)
    (hwf : c.wellFormed = true) :
    Run w (c.setUpstreamErrExit flags) = Run w c ∧
    Text w (c.setUpstreamErrExit flags) = Text w c ∧
    Successful w (c.setUpstreamErrExit flags) = Successful w c ∧
    ∃ cmd res resT out outT outS, initCmd w c = some cmd ∧ run w 0 c cmd = some res ∧
      run w 0 c { cmd with Stdout := some .buffer } = some resT ∧
      Run w (c.setUpstreamErrExit flags) = some out ∧
      Text w (c.setUpstreamErrExit flags) = some outT ∧
      Successful w (c.setUpstreamErrExit flags) = some outS ∧
      (c.errexit = false → out.status = none ∧ outT.status = none ∧ outS.status = none) ∧
      (c.errexit = true →
        (∀ N, res.err = some (.exit N) →
          out.status = some N ∧ outS = .returned (false, none)) ∧
        (∀ N, resT.err = some (.exit N) → outT.status = some N)) := by
  have hf := setUpstreamErrExit_fields flags c
  have hi : initCmd w (c.setUpstreamErrExit flags) = initCmd w c :=
    initCmd_congr w _ _ hf.1 hf.2.1
  have hR : Run w (c.setUpstreamErrExit flags) = Run w c := by
    simp only [Run, hi, run_setUpstreamErrExit, hf.2.2]
  have hT : Text w (c.setUpstreamErrExit flags) = Text w c := by
    simp only [Text, hi, run_setUpstreamErrExit, hf.2.2]
  have hS : Successful w (c.setUpstreamErrExit flags) = Successful w c := by
    simp only [Successful, hi, run_setUpstreamErrExit, hf.2.2]
  refine ⟨hR, hT, hS, ?_⟩
  obtain ⟨cmd, res, resT, hc, hr, hrT⟩ := engine_total w c hwf
  rw [hR, hT, hS]
  refine ⟨cmd, res, resT, _, _, _, hc, hr, hrT, Run_eq w c cmd res hc hr,
    Text_eq w c cmd resT hc hrT, Successful_eq w c cmd res hc hr, ?_, ?_⟩
  · intro hx
    rw [hx]
    refine ⟨?_, ?_, ?_⟩
    · cases res.err <;> simp [Outcome.status]
    · cases resT.err <;> simp [Outcome.status]
    · cases hres : res.err with
      | none => simp [Outcome.status]
      | some err => cases err <;> simp [Outcome.status, Error.asExitError]
  · intro hx
    rw [hx]
    refine ⟨?_, ?_⟩
    · intro N hN
      simp [hN, exitForError, Error.asExitError, Outcome.status]
    · intro N hN
      simp [hN, exitForError, Error.asExitError, Outcome.status]

/-- C5 amended, at `a | b` with ErrExit on `b` only, compared with ErrExit on
both stages, where `a` exits with 3: `Run` ends the program with status 3 in
both. -/
theorem ErrExit_only_at_final_witness :
    pipelineAB.ErrExit.wellFormed = true ∧
    pipelineAB.ErrExit.setUpstreamErrExit (fun _ => true) = pipelineABErrExit ∧
    Run (worldOf onlyHeadFails3 []) pipelineABErrExit = some (.osExit 3) ∧
    Run (worldOf onlyHeadFails3 []) (pipelineAB.ErrExit.setUpstreamErrExit (fun _ => true)) =
      Run (worldOf onlyHeadFails3 []) pipelineAB.ErrExit :=
  ⟨by decide, rfl, by decide,
    (ErrExit_only_at_final (worldOf onlyHeadFails3 []) pipelineAB.ErrExit (fun _ => true)
      (by decide)).1⟩

/-! ## Text -/

/-- `TrimSpace` removes a run of white space at each end and nothing else, and
what is left neither starts nor ends with white space. -/
theorem TrimSpace_spec (s : GoString) :
    (∃ l r, s = l ++ TrimSpace s ++ r ∧ l.all IsSpace = true ∧ r.all IsSpace = true) ∧
    (∀ ch, (TrimSpace s).head? = some ch → IsSpace ch = false) ∧
    (∀ ch, (TrimSpace s).getLast? = some ch → IsSpace ch = false) := by
  have hleft : s = s.takeWhile IsSpace ++ s.dropWhile IsSpace :=
    (List.takeWhile_append_dropWhile IsSpace s).symm
  have hright : s.dropWhile IsSpace =
      TrimSpace s ++ ((s.dropWhile IsSpace).reverse.takeWhile IsSpace).reverse := by
    have h := List.takeWhile_append_dropWhile IsSpace (s.dropWhile IsSpace).reverse
    have h2 := congrArg List.reverse h
    simp only [List.reverse_append, List.reverse_reverse] at h2
    exact h2.symm
  have hlast : ∀ ch, (TrimSpace s).getLast? = some ch → IsSpace ch = false := by
    intro ch hch
    simp only [TrimSpace, List.getLast?_reverse] at hch
    have := List.head?_dropWhile_not IsSpace (s.dropWhile IsSpace).reverse
    rw [hch] at this
    simpa using this
  refine ⟨⟨s.takeWhile IsSpace, ((s.dropWhile IsSpace).reverse.takeWhile IsSpace).reverse,
    ?_, ?_, ?_⟩, ?_, hlast⟩
  · rw [List.append_assoc, ← hright]
    exact hleft
  · rw [List.all_eq_true]
    intro ch hch
    exact List.mem_takeWhile_imp hch
  · rw [List.all_eq_true]
    intro ch hch
    exact List.mem_takeWhile_imp (List.mem_reverse.mp hch)
  · intro ch hch
    have hhead : (s.dropWhile IsSpace).head? = some ch := by
      rw [hright, List.head?_append, hch]
      rfl
    have := List.head?_dropWhile_not IsSpace s
    rw [hhead] at this
    simpa using this

theorem ownCmd_buffer (i : Nat) (c : Cmd) (cmd : ExecCmd) :
    ownCmd i c { cmd with Stdout := some .buffer } =
      { ownCmd i c cmd with Stdout := some .buffer } := by
  cases hp : c.parent <;> simp only [ownCmd, hp, bindDefaults] <;> split_ifs <;> simp_all

theorem wellFormed_parent (c p : Cmd) (hp : c.parent = some p) (hwf : c.wellFormed = true) :
    p.wellFormed = true := by
  cases c with
  | mk q a e d x o r =>
    simp only [Cmd.parent] at hp
    subst hp
    simp only [Cmd.wellFormed, Bool.and_eq_true] at hwf
    exact hwf.2

/-- The engine at the invoked stage, in the three cases of `startParent`. -/
theorem run_cases (w : World) (c : Cmd) (i : Nat) (cmd : ExecCmd) (hwf : c.wellFormed = true) :
    ∃ line, logDebug w c = some line ∧
      ((c.parent = none ∧
          run w i c cmd = some ⟨(w.cmdRun i (ownCmd i c cmd)).err,
            (if (ownCmd i c cmd).Stdout = some .buffer then (w.cmdRun i (ownCmd i c cmd)).stdout
              else []),
            [(if c.debug then [Event.print line] else []) ++
              [Event.exec (ownCmd i c cmd) (w.cmdRun i (ownCmd i c cmd)).err]]⟩) ∨
        (∃ p err, c.parent = some p ∧ w.osPipe i = some err ∧
          run w i c cmd = some ⟨some err, [], [[]]⟩) ∨
        (∃ p pcmd up, c.parent = some p ∧ w.osPipe i = none ∧ parentCmd w i p = some pcmd ∧
          run w (i + 1) p pcmd = some up ∧
          run w i c cmd = some ⟨(match (w.cmdRun i (ownCmd i c cmd)).err with
              | some err => some err
              | none => up.err),
            (if (ownCmd i c cmd).Stdout = some .buffer then (w.cmdRun i (ownCmd i c cmd)).stdout
              else []),
            ([Event.pipe, Event.spawn] ++ (if c.debug then [Event.print line] else []) ++
              [Event.exec (ownCmd i c cmd) (w.cmdRun i (ownCmd i c cmd)).err]) :: up.trace⟩)) := by
  obtain ⟨line, hl⟩ := logDebug_isSome w c (wellFormed_envs c hwf)
  refine ⟨line, hl, ?_⟩
  cases hp : c.parent with
  | none => exact Or.inl ⟨rfl, run_root_eq w c i cmd line hp hl⟩
  | some p =>
    cases hpipe : w.osPipe i with
    | some err => exact Or.inr (Or.inl ⟨p, err, rfl, rfl, run_pipe_failed w c p i cmd err hp hpipe⟩)
    | none =>
      have hpwf := wellFormed_parent c p hp hwf
      obtain ⟨pcmd0, hpcmd0, -⟩ := initCmd_wellFormed w p hpwf
      have hpcmd : parentCmd w i p = some { pcmd0 with Stdout := some (.pipeWrite i) } := by
        simp [parentCmd, hpcmd0]
      obtain ⟨up, hup⟩ := run_total w p (i + 1) { pcmd0 with Stdout := some (.pipeWrite i) } hpwf
      exact Or.inr (Or.inr ⟨p, _, up, rfl, rfl, hpcmd, hup,
        run_link w c p i cmd _ up line hp hpipe hpcmd hup hl⟩)

/-- When the error of the process of the invoked stage does not depend on what
its stdout is bound to, the engine returns the same error under `Text` as
under `Run`. -/
theorem run_err_buffer (w : World) (c : Cmd) (cmd : ExecCmd) (hwf : c.wellFormed = true)
    (hsame : ∀ (cmd : ExecCmd) (h : Option Handle),
      (w.cmdRun 0 { cmd with Stdout := h }).err = (w.cmdRun 0 cmd).err) :
    (run w 0 c { cmd with Stdout := some .buffer }).map RunResult.err =
      (run w 0 c cmd).map RunResult.err := by
  have hown : (w.cmdRun 0 (ownCmd 0 c { cmd with Stdout := some .buffer })).err =
      (w.cmdRun 0 (ownCmd 0 c cmd)).err := by
    rw [ownCmd_buffer]
    exact hsame _ _
  obtain ⟨line, -, h1 | h1 | h1⟩ := run_cases w c 0 cmd hwf <;>
    obtain ⟨line2, -, h2 | h2 | h2⟩ := run_cases w c 0 { cmd with Stdout := some .buffer } hwf
  · rw [h1.2, h2.2]
    simp [hown]
  · obtain ⟨p, err, hp, -⟩ := h2
    simp [h1.1] at hp
  · obtain ⟨p, pcmd, up, hp, -⟩ := h2
    simp [h1.1] at hp
  · obtain ⟨p, err, hp, -⟩ := h1
    simp [h2.1] at hp
  · obtain ⟨p, err, hp, hpipe, hr⟩ := h1
    obtain ⟨p2, err2, hp2, hpipe2, hr2⟩ := h2
    rw [hr, hr2]
    simp_all
  · obtain ⟨p, err, hp, hpipe, hr⟩ := h1
    obtain ⟨p2, pcmd, up, hp2, hpipe2, -⟩ := h2
    simp [hpipe] at hpipe2
  · obtain ⟨p, pcmd, up, hp, -⟩ := h1
    simp [h2.1] at hp
  · obtain ⟨p, pcmd, up, hp, hpipe, -⟩ := h1
    obtain ⟨p2, err2, hp2, hpipe2, hr2⟩ := h2
    simp [hpipe] at hpipe2
  · obtain ⟨p, pcmd, up, hp, hpipe, hpcmd, hup, hr⟩ := h1
    obtain ⟨p2, pcmd2, up2, hp2, hpipe2, hpcmd2, hup2, hr2⟩ := h2
    rw [hp] at hp2
    cases hp2
    rw [hpcmd] at hpcmd2
    cases hpcmd2
    rw [hup] at hup2
    cases hup2
    rw [hr, hr2]
    simp [hown]

/-- C6. `Text` on a well-formed descriptor. The process of the invoked stage
is run with the buffer as stdout whatever NoStdout says, and when it is run the
buffer holds what it wrote. `Text` returns the contents of the buffer with the
white space at both ends removed (what is cut off at each end is white space
only, and what is left neither starts nor ends with white space). It treats the
result of the engine as `Run` does: with ErrExit off the trimmed text is
returned together with the error, nil or non-nil; with ErrExit on an error
ends the program. When the error of the process does not depend on what its
stdout is bound to, `Text` ends exactly as `Run` does, with the trimmed text
added to the returned error. -/
theorem Text_capture (w : World) (c : Cmd) (hwf : c.wellFormed = true) :
    ∃ cmd resT, initCmd w c = some cmd ∧
      run w 0 c { cmd with Stdout := some .buffer } = some resT ∧
      (ownCmd 0 c { cmd with Stdout := some .buffer }).Stdout = some .buffer ∧
      ((c.parent = none ∨ w.osPipe 0 = none) →
        (∃ before rest, resT.trace =
          (before ++ [Event.exec (ownCmd 0 c { cmd with Stdout := some .buffer })
            (w.cmdRun 0 (ownCmd 0 c { cmd with Stdout := some .buffer })).err]) :: rest) ∧
        resT.stdout = (w.cmdRun 0 (ownCmd 0 c { cmd with Stdout := some .buffer })).stdout) ∧
      Text w c = some (match resT.err with
        | some err =>
          if c.errexit then exitForError err else .returned (TrimSpace resT.stdout, some err)
        | none => .returned (TrimSpace resT.stdout, none)) ∧
      (c.errexit = false → Text w c = some (.returned (TrimSpace resT.stdout, resT.err))) ∧
      ((∀ (cmd : ExecCmd) (h : Option Handle),
          (w.cmdRun 0 { cmd with Stdout := h }).err = (w.cmdRun 0 cmd).err) →
        Text w c = (Run w c).map (Outcome.map fun err => (TrimSpace resT.stdout, err))) ∧
      (∃ l r, resT.stdout = l ++ TrimSpace resT.stdout ++ r ∧
        l.all IsSpace = true ∧ r.all IsSpace = true) ∧
      (∀ ch, (TrimSpace resT.stdout).head? = some ch → IsSpace ch = false) ∧
      (∀ ch, (TrimSpace resT.stdout).getLast? = some ch → IsSpace ch = false) := by
  obtain ⟨cmd, res, resT, hc, hr, hrT⟩ := engine_total w c hwf
  have hbuf : (ownCmd 0 c { cmd with Stdout := some .buffer }).Stdout = some .buffer := by
    rw [ownCmd_buffer]
  have hT := Text_eq w c cmd resT hc hrT
  have hR := Run_eq w c cmd res hc hr
  obtain ⟨htrim, hhead, hlast⟩ := TrimSpace_spec resT.stdout
  refine ⟨cmd, resT, hc, hrT, hbuf, ?_, hT, ?_, ?_, htrim, hhead, hlast⟩
  · intro hran
    obtain ⟨line, -, h | h | h⟩ := run_cases w c 0 { cmd with Stdout := some .buffer } hwf
    · rw [hrT] at h
      have h2 := Option.some.inj h.2
      subst h2
      exact ⟨⟨_, [], rfl⟩, by simp [hbuf]⟩
    · obtain ⟨p, err, hp, hpipe, -⟩ := h
      rcases hran with hran | hran
      · simp [hran] at hp
      · simp [hran] at hpipe
    · obtain ⟨p, pcmd, up, -, -, -, -, h⟩ := h
      rw [hrT] at h
      have h2 := Option.some.inj h
      subst h2
      exact ⟨⟨_, _, rfl⟩, by simp [hbuf]⟩
  · intro hx
    rw [hT, hx]
    cases resT.err <;> rfl
  · intro hsame
    have herr : resT.err = res.err := by
      have := run_err_buffer w c cmd hwf hsame
      rw [hr, hrT] at this
      simpa using this
    rw [hT, hR, herr]
    cases res.err with
    | none => rfl
    | some err => cases c.errexit <;> cases err <;> rfl

/-- C6, at `Command("a").NoStdout()` whose process writes `result` and a
newline: `Text` returns `result`; and at `a | b` where `a` exits with 3: the
trimmed text is returned together with the error. -/
theorem Text_capture_witness :
    stageA.NoStdout.wellFormed = true ∧
    Text (worldOf allSucceed "result\n".toList) stageA.NoStdout =
      some (.returned ("result".toList, none)) ∧
    Text (worldOf onlyHeadFails3 " \t result\r\n".toList) pipelineAB =
      some (.returned ("result".toList, some (.exit 3))) ∧
    ∃ cmd resT, initCmd (worldOf allSucceed "result\n".toList) stageA.NoStdout = some cmd ∧
      run (worldOf allSucceed "result\n".toList) 0 stageA.NoStdout
        { cmd with Stdout := some .buffer } = some resT ∧
      (ownCmd 0 stageA.NoStdout { cmd with Stdout := some .buffer }).Stdout = some .buffer ∧
      ((stageA.NoStdout.parent = none ∨ (worldOf allSucceed "result\n".toList).osPipe 0 = none) →
        (∃ before rest, resT.trace =
          (before ++ [Event.exec (ownCmd 0 stageA.NoStdout { cmd with Stdout := some .buffer })
            ((worldOf allSucceed "result\n".toList).cmdRun 0
              (ownCmd 0 stageA.NoStdout { cmd with Stdout := some .buffer })).err]) :: rest) ∧
        resT.stdout = ((worldOf allSucceed "result\n".toList).cmdRun 0
          (ownCmd 0 stageA.NoStdout { cmd with Stdout := some .buffer })).stdout) ∧
      Text (worldOf allSucceed "result\n".toList) stageA.NoStdout =
        some (match resT.err with
          | some err =>
            if stageA.NoStdout.errexit then exitForError err
            else .returned (TrimSpace resT.stdout, some err)
          | none => .returned (TrimSpace resT.stdout, none)) ∧
      (stageA.NoStdout.errexit = false →
        Text (worldOf allSucceed "result\n".toList) stageA.NoStdout =
          some (.returned (TrimSpace resT.stdout, resT.err))) ∧
      ((∀ (cmd : ExecCmd) (h : Option Handle),
          ((worldOf allSucceed "result\n".toList).cmdRun 0 { cmd with Stdout := h }).err =
            ((worldOf allSucceed "result\n".toList).cmdRun 0 cmd).err) →
        Text (worldOf allSucceed "result\n".toList) stageA.NoStdout =
          (Run (worldOf allSucceed "result\n".toList) stageA.NoStdout).map
            (Outcome.map fun err => (TrimSpace resT.stdout, err))) ∧
      (∃ l r, resT.stdout = l ++ TrimSpace resT.stdout ++ r ∧
        l.all IsSpace = true ∧ r.all IsSpace = true) ∧
      (∀ ch, (TrimSpace resT.stdout).head? = some ch → IsSpace ch = false) ∧
      (∀ ch, (TrimSpace resT.stdout).getLast? = some ch → IsSpace ch = false) :=
  ⟨by decide, by decide, by decide,
    Text_capture (worldOf allSucceed "result\n".toList) stageA.NoStdout (by decide)⟩

/-! ## Environment overrides -/

theorem Env_envs (c : Cmd) (name value : GoString) :
    (c.Env name value).envs = c.envs ++ [name ++ ['='] ++ value] := by
  cases c with
  | mk p a e d x o r => rfl

theorem apply_args (c : Cmd) (op : Op) : (c.apply op).args = c.args ∧
    (c.apply op).parent = c.parent := by
  cases c with
  | mk p a e d x o r => cases op <;> exact ⟨rfl, rfl⟩

theorem applyAll_args (ops : List Op) (c : Cmd) : (c.applyAll ops).args = c.args ∧
    (c.applyAll ops).parent = c.parent := by
  induction ops generalizing c with
  | nil => exact ⟨rfl, rfl⟩
  | cons op ops ih =>
    have h1 := ih (c.apply op)
    have h2 := apply_args c op
    exact ⟨h1.1.trans h2.1, h1.2.trans h2.2⟩

theorem apply_envs (c : Cmd) (op : Op) :
    (c.apply op).envs = c.envs ++ (envCalls [op]).map envEntry := by
  cases c with
  | mk p a e d x o r => cases op <;> simp [Cmd.apply, Cmd.Env, Cmd.Debug, Cmd.ErrExit,
      Cmd.NoStdout, Cmd.NoStderr, Cmd.NoOutput, Cmd.envs, envCalls, envEntry]

theorem envCalls_cons (op : Op) (ops : List Op) :
    envCalls (op :: ops) = envCalls [op] ++ envCalls ops := by
  cases op <;> simp [envCalls]

theorem applyAll_envs (ops : List Op) (c : Cmd) :
    (c.applyAll ops).envs = c.envs ++ (envCalls ops).map envEntry := by
  induction ops generalizing c with
  | nil => simp [Cmd.applyAll, envCalls]
  | cons op ops ih =>
    have h := ih (c.apply op)
    simp only [Cmd.applyAll, List.foldl_cons] at h ⊢
    rw [h, apply_envs, envCalls_cons op ops]
    simp

theorem lookupEnv_append_calls (env : List GoString) (name : GoString)
    (calls : List (GoString × GoString)) (hc : ∀ call ∈ calls, '=' ∉ call.1) :
    lookupEnv (env ++ calls.map envEntry) name =
      match lastCall calls name with
      | some value => some value
      | none => lookupEnv env name := by
  induction calls using List.reverseRecOn with
  | nil => simp [lastCall]
  | append_singleton calls call ih =>
    have h1 : '=' ∉ call.1 := hc call (by simp)
    have h2 : ∀ x ∈ calls, '=' ∉ x.1 := fun x hx => hc x (by simp [hx])
    have hs : splitN2 (envEntry call) = [call.1, call.2] := splitN2_append call.1 call.2 h1
    have ih2 := ih h2
    unfold lookupEnv at ih2 ⊢
    rw [List.map_append, ← List.append_assoc, List.foldl_append, ih2]
    simp only [List.map_cons, List.map_nil, List.foldl_cons, List.foldl_nil, hs]
    by_cases hn : call.1 = name
    · simp [lastCall, hn]
    · simp [lastCall, hn]

theorem ownCmd_Env (i : Nat) (c : Cmd) (cmd : ExecCmd) :
    (ownCmd i c cmd).Env = cmd.Env ∧ (ownCmd i c cmd).Args = cmd.Args := by
  cases hp : c.parent <;> simp only [ownCmd, hp, bindDefaults] <;> split_ifs <;> simp_all

theorem newCmd_envs (up : Option Cmd) (args : List GoString) :
    (newCmd up args).envs = [] ∧ (newCmd up args).args = args ∧ (newCmd up args).parent = up := by
  cases up <;> exact ⟨rfl, rfl, rfl⟩

/-- C7. Environment overrides. `Env(name, value)` appends the one entry
`name=value` after the entries already stored. For a descriptor made by
`Command` or `Pipe` and any builder calls, the stored overrides are the `Env`
calls in call order, and the environment handed to the process is the
inherited environment followed by them. Hence, when no name given to `Env`
contains `=`, last-entry-wins lookup of any name in the environment of the
process gives the value of the latest `Env` call for that name when there is
one, and the inherited value otherwise. -/
theorem Env_overrides (w : World) (up : Option Cmd) (args : List GoString) (ops : List Op)
    (name : GoString) (hargs : args ≠ [])
    (hnames : ∀ call ∈ envCalls ops, '=' ∉ call.1) :
    (∀ (c : Cmd) (n v : GoString), (c.Env n v).envs = c.envs ++ [n ++ ['='] ++ v]) ∧
    ((newCmd up args).applyAll ops).envs = (envCalls ops).map envEntry ∧
    ∃ cmd, initCmd w ((newCmd up args).applyAll ops) = some cmd ∧
      cmd.Env = w.environ ++ (envCalls ops).map envEntry ∧
      (∀ i cmd2, cmd2.Env = cmd.Env →
        (ownCmd i ((newCmd up args).applyAll ops) cmd2).Env =
          w.environ ++ (envCalls ops).map envEntry) ∧
      lookupEnv cmd.Env name =
        match lastCall (envCalls ops) name with
        | some value => some value
        | none => lookupEnv w.environ name := by
  have henvs : ((newCmd up args).applyAll ops).envs = (envCalls ops).map envEntry := by
    rw [applyAll_envs, (newCmd_envs up args).1]
    rfl
  have hargs2 : ((newCmd up args).applyAll ops).args = args := by
    rw [(applyAll_args ops _).1, (newCmd_envs up args).2.1]
  refine ⟨Env_envs, henvs, ?_⟩
  cases hsplit : args with
  | nil => exact absurd hsplit hargs
  | cons a0 rest =>
    have hinit : initCmd w ((newCmd up (a0 :: rest)).applyAll ops) =
        some { execCommand a0 rest with
          Env := w.environ ++ ((newCmd up (a0 :: rest)).applyAll ops).envs } := by
      rw [hsplit] at hargs2
      simp [initCmd, hargs2]
    rw [hsplit] at henvs
    refine ⟨_, hinit, ?_, ?_, ?_⟩
    · simp [henvs]
    · intro i cmd2 h2
      rw [(ownCmd_Env i _ cmd2).1, h2]
      simp [henvs]
    · simp only [henvs]
      exact lookupEnv_append_calls w.environ name (envCalls ops) hnames

/-- C7, at `Command("a").Env("X", "1").Debug().Env("X", "2")` with `X=0` and
`HOME=/root` inherited: the process sees `X=2`; `HOME` keeps its inherited value. -/
theorem Env_overrides_witness :
    (∃ cmd, initCmd (worldOf allSucceed [])
        ((newCmd none [['a']]).applyAll [.env ['X'] ['1'], .debug, .env ['X'] ['2']]) = some cmd ∧
      cmd.Env = ["HOME=/root".toList, "X=0".toList, "X=1".toList, "X=2".toList] ∧
      lookupEnv cmd.Env ['X'] = some ['2'] ∧
      lookupEnv cmd.Env "HOME".toList = some "/root".toList) ∧
    ((∀ (c : Cmd) (n v : GoString), (c.Env n v).envs = c.envs ++ [n ++ ['='] ++ v]) ∧
    ((newCmd none [['a']]).applyAll [.env ['X'] ['1'], .debug, .env ['X'] ['2']]).envs =
      (envCalls [.env ['X'] ['1'], .debug, .env ['X'] ['2']]).map envEntry ∧
    ∃ cmd, initCmd (worldOf allSucceed [])
        ((newCmd none [['a']]).applyAll [.env ['X'] ['1'], .debug, .env ['X'] ['2']]) = some cmd ∧
      cmd.Env = (worldOf allSucceed []).environ ++
        (envCalls [.env ['X'] ['1'], .debug, .env ['X'] ['2']]).map envEntry ∧
      (∀ i cmd2, cmd2.Env = cmd.Env →
        (ownCmd i ((newCmd none [['a']]).applyAll [.env ['X'] ['1'], .debug, .env ['X'] ['2']])
          cmd2).Env =
          (worldOf allSucceed []).environ ++
            (envCalls [.env ['X'] ['1'], .debug, .env ['X'] ['2']]).map envEntry) ∧
      lookupEnv cmd.Env ['X'] =
        match lastCall (envCalls [.env ['X'] ['1'], .debug, .env ['X'] ['2']]) ['X'] with
        | some value => some value
        | none => lookupEnv (worldOf allSucceed []).environ ['X']) :=
  ⟨⟨_, rfl, by decide, by decide, by decide⟩,
    Env_overrides (worldOf allSucceed []) none [['a']]
      [.env ['X'] ['1'], .debug, .env ['X'] ['2']] ['X'] (by decide) (by decide)⟩

/-! ## Pipe -/

/-- C8. `c.Pipe(args)` is a descriptor whose upstream is `c`, whose argument
vector is `args`, whose override list is empty and whose four flags are false,
whatever the overrides and flags of `c`; its process gets the inherited
environment only; and the receiver, now the upstream of the new descriptor,
has the arguments, overrides, flags and upstream it had before. -/
theorem Pipe_fresh (w : World) (c : Cmd) (args : List GoString) :
    (c.Pipe args).parent = some c ∧ (c.Pipe args).args = args ∧ (c.Pipe args).envs = [] ∧
    (c.Pipe args).debug = false ∧ (c.Pipe args).errexit = false ∧
    (c.Pipe args).nostdout = false ∧ (c.Pipe args).nostderr = false ∧
    (∀ name arg, args = name :: arg →
      initCmd w (c.Pipe args) = some { execCommand name arg with Env := w.environ }) ∧
    ∃ u, (c.Pipe args).parent = some u ∧ u.args = c.args ∧ u.envs = c.envs ∧
      u.debug = c.debug ∧ u.errexit = c.errexit ∧ u.nostdout = c.nostdout ∧
      u.nostderr = c.nostderr ∧ u.parent = c.parent := by
  refine ⟨rfl, rfl, rfl, rfl, rfl, rfl, rfl, ?_, c, rfl, rfl, rfl, rfl, rfl, rfl, rfl, rfl⟩
  intro name arg h
  subst h
  simp [initCmd, Cmd.Pipe, Cmd.args, Cmd.envs]

/-! ## Well-formed descriptors from the builder -/

theorem wellFormed_iff (c : Cmd) :
    c.wellFormed = true ↔
      c.args ≠ [] ∧ c.envs.all (fun env => env.contains '=') = true ∧
        ∀ p, c.parent = some p → p.wellFormed = true := by
  cases c with
  | mk p a e d x o r =>
    cases p with
    | none => simp [Cmd.wellFormed, Cmd.args, Cmd.envs, Cmd.parent]
    | some p =>
      simp only [Cmd.wellFormed, Cmd.args, Cmd.envs, Cmd.parent, Bool.and_eq_true,
        Option.some.injEq, forall_eq', and_assoc]
      simp

theorem envEntry_contains (calls : List (GoString × GoString)) :
    (calls.map envEntry).all (fun env => env.contains '=') = true := by
  rw [List.all_eq_true]
  intro env henv
  obtain ⟨call, -, rfl⟩ := List.mem_map.mp henv
  simp [envEntry]

theorem wellFormed_newCmd (up : Option Cmd) (args : List GoString) (ops : List Op)
    (hargs : args ≠ []) (hup : ∀ p, up = some p → p.wellFormed = true) :
    ((newCmd up args).applyAll ops).wellFormed = true := by
  rw [wellFormed_iff]
  refine ⟨?_, ?_, ?_⟩
  · rw [(applyAll_args ops _).1, (newCmd_envs up args).2.1]
    exact hargs
  · rw [applyAll_envs, (newCmd_envs up args).1]
    exact envEntry_contains _
  · intro p hp
    rw [(applyAll_args ops _).2, (newCmd_envs up args).2.2] at hp
    exact hup p hp

/-! ## Trace line -/

theorem apply_debug (c : Cmd) (op : Op) :
    (c.apply op).debug = (c.debug || debugCalled [op]) := by
  cases c with
  | mk p a e d x o r =>
    cases op <;> simp [Cmd.apply, Cmd.Env, Cmd.Debug, Cmd.ErrExit, Cmd.NoStdout, Cmd.NoStderr,
      Cmd.NoOutput, Cmd.debug, debugCalled]

theorem applyAll_debug (ops : List Op) (c : Cmd) :
    (c.applyAll ops).debug = (c.debug || debugCalled ops) := by
  induction ops generalizing c with
  | nil => simp [Cmd.applyAll, debugCalled]
  | cons op ops ih =>
    have h := ih (c.apply op)
    simp only [Cmd.applyAll, List.foldl_cons] at h ⊢
    rw [h, apply_debug]
    cases c.debug <;> cases op <;> simp [debugCalled]

theorem newCmd_debug (up : Option Cmd) (args : List GoString) : (newCmd up args).debug = false := by
  cases up <;> rfl

/-- C9. Trace line. Let `c` be made by `Command(args)` or `up.Pipe(args)`
(`args` not empty, `up` well formed) and any builder calls whose `Env` names
contain no `=`. Formatting never fails: `logDebug` yields `+ `, then
`name=`, the quoted value and a space for every `Env` call in call order, then
the quoted arguments separated by single spaces. Tracing is on exactly when
`Debug()` was called. In every execution of the stage its events are: without
upstream, the line (when tracing is on) and then the start of the process; with
an upstream and a pipe, the pipe set-up, the line (when tracing is on) and then
the start of the process; the line appears once, and not at all when tracing
is off. When the pipe cannot be allocated the stage does nothing. -/
theorem trace_line (w : World) (up : Option Cmd) (args : List GoString) (ops : List Op)
    (i : Nat) (cmd : ExecCmd) (hargs : args ≠ [])
    (hup : ∀ p, up = some p → p.wellFormed = true)
    (hnames : ∀ call ∈ envCalls ops, '=' ∉ call.1) :
    logDebug w ((newCmd up args).applyAll ops) = some (traceLine w (envCalls ops) args) ∧
    ((newCmd up args).applyAll ops).debug = debugCalled ops ∧
    ∃ res own rest, run w i ((newCmd up args).applyAll ops) cmd = some res ∧
      res.trace = own :: rest ∧
      (up = none →
        own = (if debugCalled ops then [Event.print (traceLine w (envCalls ops) args)] else []) ++
          [Event.exec (ownCmd i ((newCmd up args).applyAll ops) cmd)
            (w.cmdRun i (ownCmd i ((newCmd up args).applyAll ops) cmd)).err]) ∧
      (up ≠ none → w.osPipe i = none →
        own = [Event.pipe, Event.spawn] ++
          (if debugCalled ops then [Event.print (traceLine w (envCalls ops) args)] else []) ++
          [Event.exec (ownCmd i ((newCmd up args).applyAll ops) cmd)
            (w.cmdRun i (ownCmd i ((newCmd up args).applyAll ops) cmd)).err]) ∧
      (up ≠ none → ∀ err, w.osPipe i = some err → own = []) ∧
      (own.filter Event.isPrint =
        if debugCalled ops && (up.isNone || (w.osPipe i).isNone) then
          [Event.print (traceLine w (envCalls ops) args)]
        else []) := by
  have hwf := wellFormed_newCmd up args ops hargs hup
  have henvs : ((newCmd up args).applyAll ops).envs = (envCalls ops).map envEntry := by
    rw [applyAll_envs, (newCmd_envs up args).1]
    rfl
  have hargs2 : ((newCmd up args).applyAll ops).args = args := by
    rw [(applyAll_args ops _).1, (newCmd_envs up args).2.1]
  have hparent : ((newCmd up args).applyAll ops).parent = up := by
    rw [(applyAll_args ops _).2, (newCmd_envs up args).2.2]
  have hdebug : ((newCmd up args).applyAll ops).debug = debugCalled ops := by
    rw [applyAll_debug, newCmd_debug]
    simp
  have hline := logDebug_calls w _ (envCalls ops) henvs hnames
  rw [hargs2] at hline
  refine ⟨hline, hdebug, ?_⟩
  obtain ⟨line, hl, h | h | h⟩ := run_cases w _ i cmd hwf
  · rw [hline] at hl
    cases hl
    rw [hparent] at h
    refine ⟨_, _, _, h.2, rfl, ?_, ?_, ?_, ?_⟩
    · intro _
      rw [hdebug]
    · intro hne
      exact absurd h.1 hne
    · intro hne
      exact absurd h.1 hne
    · rw [hdebug]
      cases debugCalled ops <;> simp [Event.isPrint, h.1]
  · obtain ⟨p, err, hp, hpipe, hr⟩ := h
    rw [hparent] at hp
    refine ⟨_, _, _, hr, rfl, ?_, ?_, ?_, ?_⟩
    · intro hnone
      simp [hnone] at hp
    · intro _ hnone
      simp [hnone] at hpipe
    · intro _ _ _
      rfl
    · simp [hp, hpipe]
  · obtain ⟨p, pcmd, upres, hp, hpipe, -, -, hr⟩ := h
    rw [hline] at hl
    cases hl
    rw [hparent] at hp
    refine ⟨_, _, _, hr, rfl, ?_, ?_, ?_, ?_⟩
    · intro hnone
      simp [hnone] at hp
    · intro _ _
      rw [hdebug]
    · intro _ err herr
      simp [herr] at hpipe
    · rw [hdebug]
      cases debugCalled ops <;> simp [Event.isPrint, hpipe]

/-- C9, at `Command("a").Pipe("b", "c").Env("K", "v w").Debug()` run as the
invoked stage: one line, after the pipe set-up and before the process. -/
theorem trace_line_witness :
    logDebug worldQuoting
        ((newCmd (some stageA) [['b'], ['c']]).applyAll [.env ['K'] "v w".toList, .debug]) =
      some "+ K=<v w> <b> <c>".toList ∧
    (run worldQuoting 0
        ((newCmd (some stageA) [['b'], ['c']]).applyAll [.env ['K'] "v w".toList, .debug])
        (execCommand ['b'] [['c']])).map (fun res => res.trace.map (List.map Event.isPrint)) =
      some [[false, false, true, false], [false]] ∧
    (logDebug worldQuoting
        ((newCmd (some stageA) [['b'], ['c']]).applyAll [.env ['K'] "v w".toList, .debug]) =
      some (traceLine worldQuoting (envCalls [.env ['K'] "v w".toList, .debug]) [['b'], ['c']]) ∧
    ((newCmd (some stageA) [['b'], ['c']]).applyAll [.env ['K'] "v w".toList, .debug]).debug =
      debugCalled [.env ['K'] "v w".toList, .debug] ∧
    ∃ res own rest, run worldQuoting 0
        ((newCmd (some stageA) [['b'], ['c']]).applyAll [.env ['K'] "v w".toList, .debug])
        (execCommand ['b'] [['c']]) = some res ∧
      res.trace = own :: rest ∧
      (some stageA = none →
        own = (if debugCalled [.env ['K'] "v w".toList, .debug] then
            [Event.print (traceLine worldQuoting (envCalls [.env ['K'] "v w".toList, .debug])
              [['b'], ['c']])] else []) ++
          [Event.exec (ownCmd 0
              ((newCmd (some stageA) [['b'], ['c']]).applyAll [.env ['K'] "v w".toList, .debug])
              (execCommand ['b'] [['c']]))
            (worldQuoting.cmdRun 0 (ownCmd 0
              ((newCmd (some stageA) [['b'], ['c']]).applyAll [.env ['K'] "v w".toList, .debug])
              (execCommand ['b'] [['c']]))).err]) ∧
      (some stageA ≠ none → worldQuoting.osPipe 0 = none →
        own = [Event.pipe, Event.spawn] ++
          (if debugCalled [.env ['K'] "v w".toList, .debug] then
            [Event.print (traceLine worldQuoting (envCalls [.env ['K'] "v w".toList, .debug])
              [['b'], ['c']])] else []) ++
          [Event.exec (ownCmd 0
              ((newCmd (some stageA) [['b'], ['c']]).applyAll [.env ['K'] "v w".toList, .debug])
              (execCommand ['b'] [['c']]))
            (worldQuoting.cmdRun 0 (ownCmd 0
              ((newCmd (some stageA) [['b'], ['c']]).applyAll [.env ['K'] "v w".toList, .debug])
              (execCommand ['b'] [['c']]))).err]) ∧
      (some stageA ≠ none → ∀ err, worldQuoting.osPipe 0 = some err → own = []) ∧
      (own.filter Event.isPrint =
        if debugCalled [.env ['K'] "v w".toList, .debug] &&
            ((some stageA).isNone || (worldQuoting.osPipe 0).isNone) then
          [Event.print (traceLine worldQuoting (envCalls [.env ['K'] "v w".toList, .debug])
            [['b'], ['c']])]
        else [])) :=
  ⟨by decide, by decide,
    trace_line worldQuoting (some stageA) [['b'], ['c']] [.env ['K'] "v w".toList, .debug] 0
      (execCommand ['b'] [['c']]) (by decide)
      (fun p hp => by cases hp; decide) (by decide)⟩

/-! ## Argument vectors -/

theorem stages_wellFormed (w : World) :
    ∀ c : Cmd, c.wellFormed = true →
      ∀ s ∈ c.stages, 1 ≤ s.args.length ∧ ∃ cmd, initCmd w s = some cmd
  | .mk none a e d x o r, hwf, s, hs => by
    simp only [Cmd.stages, List.mem_singleton] at hs
    subst hs
    obtain ⟨cmd, hc, -⟩ := initCmd_wellFormed w _ hwf
    have ha := wellFormed_args _ hwf
    exact ⟨Nat.pos_of_ne_zero (fun h => ha (List.length_eq_zero.mp h)), cmd, hc⟩
  | .mk (some p) a e d x o r, hwf, s, hs => by
    simp only [Cmd.stages, List.mem_cons] at hs
    rcases hs with hs | hs
    · subst hs
      obtain ⟨cmd, hc, -⟩ := initCmd_wellFormed w _ hwf
      have ha := wellFormed_args _ hwf
      exact ⟨Nat.pos_of_ne_zero (fun h => ha (List.length_eq_zero.mp h)), cmd, hc⟩
    · exact stages_wellFormed w p (wellFormed_parent (.mk (some p) a e d x o r) p rfl hwf) s hs

theorem eval_wellFormed (b : Build) (hargs : b.argsGiven = true) : b.eval.wellFormed = true := by
  induction b with
  | command args ops =>
    simp only [Build.argsGiven, Bool.not_eq_true', List.isEmpty_eq_false] at hargs
    exact wellFormed_newCmd none args ops hargs (by simp)
  | pipe up args ops ih =>
    simp only [Build.argsGiven, Bool.and_eq_true, Bool.not_eq_true',
      List.isEmpty_eq_false] at hargs
    have := wellFormed_newCmd (some up.eval) args ops hargs.1
      (fun p hp => by cases hp; exact ih hargs.2)
    exact this

/-- C10, as stated, fails: `Command()` with no argument is a descriptor of the
builder whose argument vector is empty; `initCmd` indexes out of range on it,
for the invoked stage and, in `Command().Pipe("b")`, for the upstream stage. -/
theorem args_nonempty_counterexample :
    (Build.command [] []).eval.args.length = 0 ∧
    initCmd (worldOf allSucceed []) (Build.command [] []).eval = none ∧
    Run (worldOf allSucceed []) (Build.command [] []).eval = none ∧
    Text (worldOf allSucceed []) (Build.command [] []).eval = none ∧
    Successful (worldOf allSucceed []) (Build.command [] []).eval = none ∧
    Run (worldOf allSucceed []) (Build.pipe (.command [] []) [['b']] []).eval = none := by
  decide

/-- C10, amended. When every call of `Command` and `Pipe` in a construction
gets at least one argument, then, whatever the builder calls, every stage of
the descriptor has an argument vector of at least one element, `initCmd`
succeeds on the invoked stage and on every upstream stage, and `Run`, `Text`
and `Successful` run without an index out of range. -/
theorem args_nonempty (w : World) (b : Build) (hargs : b.argsGiven = true) :
    b.eval.wellFormed = true ∧
    (∀ s ∈ b.eval.stages, 1 ≤ s.args.length ∧ ∃ cmd, initCmd w s = some cmd) ∧
    (∃ out, Run w b.eval = some out) ∧
    (∃ out, Text w b.eval = some out) ∧
    (∃ out, Successful w b.eval = some out) := by
  have hwf := eval_wellFormed b hargs
  obtain ⟨cmd, res, resT, hc, hr, hrT⟩ := engine_total w b.eval hwf
  exact ⟨hwf, stages_wellFormed w b.eval hwf, ⟨_, Run_eq w _ cmd res hc hr⟩,
    ⟨_, Text_eq w _ cmd resT hc hrT⟩, ⟨_, Successful_eq w _ cmd res hc hr⟩⟩

/-- C10 amended, at
`Command("a").Env("X", "1").Pipe("b", "c").Debug().ErrExit()`. -/
theorem args_nonempty_witness :
    (Build.pipe (.command [['a']] [.env ['X'] ['1']]) [['b'], ['c']]
      [.debug, .errExit]).argsGiven = true ∧
    (Build.pipe (.command [['a']] [.env ['X'] ['1']]) [['b'], ['c']]
      [.debug, .errExit]).eval.wellFormed = true ∧
    (Build.pipe (.command [['a']] [.env ['X'] ['1']]) [['b'], ['c']]
      [.debug, .errExit]).eval.stages.map Cmd.args = [[['b'], ['c']], [['a']]] ∧
    (∃ out, Run (worldOf allSucceed [])
      (Build.pipe (.command [['a']] [.env ['X'] ['1']]) [['b'], ['c']]
        [.debug, .errExit]).eval = some out) :=
  ⟨by decide, by decide, by decide,
    (args_nonempty (worldOf allSucceed [])
      (Build.pipe (.command [['a']] [.env ['X'] ['1']]) [['b'], ['c']] [.debug, .errExit])
      (by decide)).2.2.1⟩

/-! ## Stream bindings -/

theorem ownCmd_streams (i : Nat) (c : Cmd) (cmd : ExecCmd) (hin : cmd.Stdin = none)
    (herr : cmd.Stderr = none) :
    (ownCmd i c cmd).Stdin = specStdin c i ∧
    (ownCmd i c cmd).Stdout = resolvedStdout cmd.Stdout c ∧
    (ownCmd i c cmd).Stderr = specStderr c := by
  cases hp : c.parent <;> cases ho : cmd.Stdout <;> cases hn : c.nostdout <;>
    cases hr : c.nostderr <;>
    simp [ownCmd, hp, bindDefaults, hin, herr, ho, hn, hr, specStdin, specStderr,
      resolvedStdout]

theorem parentCmd_streams (w : World) (i : Nat) (p : Cmd) (pcmd : ExecCmd)
    (h : parentCmd w i p = some pcmd) :
    pcmd.Stdin = none ∧ pcmd.Stdout = some (.pipeWrite i) ∧ pcmd.Stderr = none := by
  unfold parentCmd at h
  cases hq : initCmd w p with
  | none => simp [hq] at h
  | some qcmd =>
    simp only [hq, Option.map_some', Option.some.injEq] at h
    subst h
    unfold initCmd at hq
    cases hargs : p.args with
    | nil => simp [hargs] at hq
    | cons name arg =>
      simp only [hargs, Option.some.injEq] at hq
      subst hq
      exact ⟨rfl, rfl, rfl⟩

theorem stdoutAt_succ (out0 : Option Handle) (i k : Nat) :
    stdoutAt (some (.pipeWrite i)) (i + 1) k = stdoutAt out0 i (k + 1) := by
  cases k with
  | zero => rfl
  | succ k =>
    simp only [stdoutAt]
    congr 2
    omega

/-- The events of every stage that `run` reaches, for any world. -/
theorem run_shape (w : World) :
    ∀ (c : Cmd) (i : Nat) (cmd : ExecCmd), c.wellFormed = true → cmd.Stdin = none →
      cmd.Stderr = none →
      ∃ res, run w i c cmd = some res ∧
        ∀ k t, res.trace[k]? = some t →
          ∃ s, c.stages[k]? = some s ∧ StageEvents w (i + k) s (stdoutAt cmd.Stdout i k) t ∧
            (k + 1 < res.trace.length →
              s.parent.isSome = true ∧ w.osPipe (i + k) = none ∧ t ≠ [])
  | .mk none a e d x o r, i, cmd, hwf, hin, herr => by
    obtain ⟨line, hl⟩ := logDebug_isSome w _ (wellFormed_envs _ hwf)
    refine ⟨_, run_root_eq w _ i cmd line rfl hl, ?_⟩
    intro k t hk
    cases k with
    | succ k => simp at hk
    | zero =>
      simp only [List.getElem?_cons_zero, Option.some.injEq] at hk
      subst hk
      obtain ⟨h1, h2, h3⟩ := ownCmd_streams i (.mk none a e d x o r) cmd hin herr
      refine ⟨.mk none a e d x o r, by simp [Cmd.stages],
        Or.inr ⟨line, _, ?_, ?_, h1, h2, h3⟩, ?_⟩
      · simp [Cmd.parent]
      · simp [Cmd.parent]
      · simp
  | .mk (some p) a e d x o r, i, cmd, hwf, hin, herr => by
    have hp : p.wellFormed = true := wellFormed_parent (.mk (some p) a e d x o r) p rfl hwf
    obtain ⟨line, hl⟩ := logDebug_isSome w _ (wellFormed_envs _ hwf)
    cases hpipe : w.osPipe i with
    | some perr =>
      refine ⟨_, run_pipe_failed w _ p i cmd perr rfl hpipe, ?_⟩
      intro k t hk
      cases k with
      | succ k => simp at hk
      | zero =>
        simp only [List.getElem?_cons_zero, Option.some.injEq] at hk
        subst hk
        refine ⟨.mk (some p) a e d x o r, by simp [Cmd.stages],
          Or.inl ⟨rfl, by simp [Cmd.parent], by simp [hpipe]⟩, ?_⟩
        simp
    | none =>
      obtain ⟨pcmd0, hpcmd0, -⟩ := initCmd_wellFormed w p hp
      have hpcmd : parentCmd w i p = some { pcmd0 with Stdout := some (.pipeWrite i) } := by
        simp [parentCmd, hpcmd0]
      obtain ⟨hs1, hs2, hs3⟩ := parentCmd_streams w i p _ hpcmd
      obtain ⟨up, hup, hshape⟩ :=
        run_shape w p (i + 1) { pcmd0 with Stdout := some (.pipeWrite i) } hp hs1 hs3
      refine ⟨_, run_link w _ p i cmd _ up line rfl hpipe hpcmd hup hl, ?_⟩
      intro k t hk
      cases k with
      | zero =>
        simp only [List.getElem?_cons_zero, Option.some.injEq] at hk
        subst hk
        obtain ⟨h1, h2, h3⟩ := ownCmd_streams i (.mk (some p) a e d x o r) cmd hin herr
        refine ⟨.mk (some p) a e d x o r, by simp [Cmd.stages],
          Or.inr ⟨line, _, ?_, ?_, h1, h2, h3⟩, ?_⟩
        · simp [Cmd.parent]
        · intro _
          exact hpipe
        · intro _
          exact ⟨by simp [Cmd.parent], hpipe, by simp⟩
      | succ k =>
        simp only [List.getElem?_cons_succ] at hk
        obtain ⟨s, hs, hev, hlen⟩ := hshape k t hk
        refine ⟨s, by simpa [Cmd.stages] using hs, ?_, ?_⟩
        · have h := stdoutAt_succ cmd.Stdout i k
          rw [hs2] at hev
          rw [h, Nat.add_assoc, Nat.add_comm 1 k] at hev
          exact hev
        · intro h
          have h2 : k + 1 < up.trace.length := by
            simp only [List.length_cons] at h
            omega
          have := hlen h2
          rwa [Nat.add_assoc, Nat.add_comm 1 k] at this

theorem exec_mem_stage (w : World) (k : Nat) (s : Cmd) (out0 : Option Handle) (t : List Event)
    (ecmd : ExecCmd) (err : Option Error) (h : StageEvents w k s out0 t)
    (hmem : Event.exec ecmd err ∈ t) :
    ecmd.Stdin = specStdin s k ∧
    ecmd.Stdout = resolvedStdout out0 s ∧
    ecmd.Stderr = specStderr s ∧ (s.parent.isSome = true → Event.pipe ∈ t) ∧
    err = (w.cmdRun k ecmd).err := by
  rcases h with ⟨ht, -⟩ | ⟨line, ecmd2, ht, -, h1, h2, h3⟩
  · simp [ht] at hmem
  · have heq : ecmd = ecmd2 ∧ err = (w.cmdRun k ecmd2).err := by
      rw [ht] at hmem
      cases s.parent.isSome <;> cases s.debug <;> simpa using hmem
    obtain ⟨hc, he⟩ := heq
    subst hc
    refine ⟨h1, h2, h3, ?_, he⟩
    intro hp
    rw [ht, hp]
    simp

theorem stage_started (w : World) (k : Nat) (s : Cmd) (out0 : Option Handle) (t : List Event)
    (h : StageEvents w k s out0 t) :
    ((w.osPipe k).isSome = true ∧ t = []) ∨
      ∃ ecmd, Event.exec ecmd (w.cmdRun k ecmd).err ∈ t := by
  rcases h with ⟨ht, -, hp⟩ | ⟨line, ecmd, ht, -⟩
  · exact Or.inl ⟨hp, ht⟩
  · exact Or.inr ⟨ecmd, by rw [ht]; simp⟩

theorem trace_ne_nil (w : World) (c : Cmd) (i : Nat) (cmd : ExecCmd) (res : RunResult)
    (hwf : c.wellFormed = true) (h : run w i c cmd = some res) : res.trace ≠ [] := by
  obtain ⟨line, -, h1 | h1 | h1⟩ := run_cases w c i cmd hwf
  · rw [h1.2] at h
    cases h
    simp
  · obtain ⟨p, err, -, -, hr⟩ := h1
    rw [hr] at h
    cases h
    simp
  · obtain ⟨p, pcmd, up, -, -, -, -, hr⟩ := h1
    rw [hr] at h
    cases h
    simp

/-- C12. Stream bindings at process start. On every well-formed pipeline the
engine returns (`res` under `Run` and `Successful`, `resT` under `Text`); every
stage that it reaches starts its process unless its pipe could not be
allocated; and every process that is started, in whatever stage `k`, has (a) as
stdin the read end of the pipe that the stage allocated itself when it has an
upstream, and the stdin of the program otherwise; (b) as stdout the write end
of the pipe of its downstream stage when it is an upstream, whatever its
NoStdout flag, otherwise the buffer under `Text`, whatever its NoStdout flag,
otherwise nothing when NoStdout is set and the stdout of the program when not;
(c) as stderr nothing when NoStderr is set and the stderr of the program
otherwise. -/
theorem stream_bindings (w : World) (c : Cmd) (hwf : c.wellFormed = true) :
    ∃ cmd res resT, initCmd w c = some cmd ∧ run w 0 c cmd = some res ∧
      run w 0 c { cmd with Stdout := some .buffer } = some resT ∧
      res.trace ≠ [] ∧ resT.trace ≠ [] ∧
      (∀ k t, res.trace[k]? = some t →
        ((w.osPipe k).isSome = true ∧ t = []) ∨
          ∃ ecmd, Event.exec ecmd (w.cmdRun k ecmd).err ∈ t) ∧
      (∀ k t, resT.trace[k]? = some t →
        ((w.osPipe k).isSome = true ∧ t = []) ∨
          ∃ ecmd, Event.exec ecmd (w.cmdRun k ecmd).err ∈ t) ∧
      (∀ k t ecmd err, res.trace[k]? = some t → Event.exec ecmd err ∈ t →
        ∃ s, c.stages[k]? = some s ∧ ecmd.Stdin = specStdin s k ∧
          ecmd.Stdout = specStdout s k false ∧ ecmd.Stderr = specStderr s ∧
          (s.parent.isSome = true → Event.pipe ∈ t)) ∧
      (∀ k t ecmd err, resT.trace[k]? = some t → Event.exec ecmd err ∈ t →
        ∃ s, c.stages[k]? = some s ∧ ecmd.Stdin = specStdin s k ∧
          ecmd.Stdout = specStdout s k true ∧ ecmd.Stderr = specStderr s ∧
          (s.parent.isSome = true → Event.pipe ∈ t)) := by
  obtain ⟨cmd, hc, -, -, hin, hout, herr⟩ := initCmd_wellFormed w c hwf
  obtain ⟨res, hr, hshape⟩ := run_shape w c 0 cmd hwf hin herr
  obtain ⟨resT, hrT, hshapeT⟩ :=
    run_shape w c 0 { cmd with Stdout := some .buffer } hwf hin herr
  refine ⟨cmd, res, resT, hc, hr, hrT, trace_ne_nil w c 0 _ res hwf hr,
    trace_ne_nil w c 0 _ resT hwf hrT, ?_, ?_, ?_, ?_⟩
  · intro k t hk
    obtain ⟨s, -, hev, -⟩ := hshape k t hk
    rw [Nat.zero_add] at hev
    exact stage_started w k s _ t hev
  · intro k t hk
    obtain ⟨s, -, hev, -⟩ := hshapeT k t hk
    rw [Nat.zero_add] at hev
    exact stage_started w k s _ t hev
  · intro k t ecmd err hk hmem
    obtain ⟨s, hs, hev, -⟩ := hshape k t hk
    obtain ⟨h1, h2, h3, h4, -⟩ := exec_mem_stage w _ s _ t ecmd err hev hmem
    rw [Nat.zero_add] at h1
    refine ⟨s, hs, h1, ?_, h3, h4⟩
    cases k with
    | zero => simpa [stdoutAt, hout, specStdout, resolvedStdout] using h2
    | succ k => simpa [stdoutAt, specStdout, resolvedStdout] using h2
  · intro k t ecmd err hk hmem
    obtain ⟨s, hs, hev, -⟩ := hshapeT k t hk
    obtain ⟨h1, h2, h3, h4, -⟩ := exec_mem_stage w _ s _ t ecmd err hev hmem
    rw [Nat.zero_add] at h1
    refine ⟨s, hs, h1, ?_, h3, h4⟩
    cases k with
    | zero => simpa [stdoutAt, specStdout, resolvedStdout] using h2
    | succ k => simpa [stdoutAt, specStdout, resolvedStdout] using h2

/-- C12, at `Command("a").NoOutput().Pipe("b").NoStdout()`: under `Run` the
process `b` reads the pipe, its stdout is discarded and its stderr is that of
the program; the process `a` reads the stdin of the program, writes the pipe
in spite of NoStdout, and its stderr is discarded; under `Text` the stdout of
`b` is the buffer in spite of NoStdout. -/
theorem stream_bindings_witness :
    pipelineQuiet.wellFormed = true ∧
    (run (worldOf allSucceed []) 0 pipelineQuiet
        { execCommand ['b'] [] with Env := (worldOf allSucceed []).environ }).map
      (fun res => res.trace.map (List.filterMap Event.streams)) =
      some [[(some (.pipeRead 0), none, some .osStderr)],
        [(some .osStdin, some (.pipeWrite 0), none)]] ∧
    (run (worldOf allSucceed []) 0 pipelineQuiet
        { execCommand ['b'] [] with
          Env := (worldOf allSucceed []).environ, Stdout := some .buffer }).map
      (fun res => res.trace.map (List.filterMap Event.streams)) =
      some [[(some (.pipeRead 0), some .buffer, some .osStderr)],
        [(some .osStdin, some (.pipeWrite 0), none)]] ∧
    ∃ cmd res resT, initCmd (worldOf allSucceed []) pipelineQuiet = some cmd ∧
      run (worldOf allSucceed []) 0 pipelineQuiet cmd = some res ∧
      run (worldOf allSucceed []) 0 pipelineQuiet { cmd with Stdout := some .buffer } =
        some resT ∧
      res.trace ≠ [] ∧ resT.trace ≠ [] ∧
      (∀ k t, res.trace[k]? = some t →
        (((worldOf allSucceed []).osPipe k).isSome = true ∧ t = []) ∨
          ∃ ecmd, Event.exec ecmd ((worldOf allSucceed []).cmdRun k ecmd).err ∈ t) ∧
      (∀ k t, resT.trace[k]? = some t →
        (((worldOf allSucceed []).osPipe k).isSome = true ∧ t = []) ∨
          ∃ ecmd, Event.exec ecmd ((worldOf allSucceed []).cmdRun k ecmd).err ∈ t) ∧
      (∀ k t ecmd err, res.trace[k]? = some t → Event.exec ecmd err ∈ t →
        ∃ s, pipelineQuiet.stages[k]? = some s ∧ ecmd.Stdin = specStdin s k ∧
          ecmd.Stdout = specStdout s k false ∧ ecmd.Stderr = specStderr s ∧
          (s.parent.isSome = true → Event.pipe ∈ t)) ∧
      (∀ k t ecmd err, resT.trace[k]? = some t → Event.exec ecmd err ∈ t →
        ∃ s, pipelineQuiet.stages[k]? = some s ∧ ecmd.Stdin = specStdin s k ∧
          ecmd.Stdout = specStdout s k true ∧ ecmd.Stderr = specStderr s ∧
          (s.parent.isSome = true → Event.pipe ∈ t)) :=
  ⟨by decide, by decide, by decide,
    stream_bindings (worldOf allSucceed []) pipelineQuiet (by decide)⟩

/-! ## Start order in a pipeline -/

theorem step_some (st st2 : Sched) (k : Nat) (h : st.step k = some st2) :
    k < st.live ∧ ∃ x xs, st.rest[k]? = some (x :: xs) ∧
      st2 = { live := if x = Step.spawn then max st.live (k + 2) else st.live,
              rest := st.rest.set k xs,
              taken := st.taken ++ [(k, x)] } := by
  unfold Sched.step at h
  split at h
  · rename_i hk
    split at h
    · rename_i x xs hr
      exact ⟨hk, x, xs, hr, (Option.some.inj h).symm⟩
    · simp at h
  · simp at h

theorem append_singleton_split {α : Type} (l s1 s2 : List α) (a b : α)
    (h : l ++ [a] = s1 ++ b :: s2) :
    (s2 = [] ∧ s1 = l ∧ b = a) ∨ ∃ s3, s2 = s3 ++ [a] ∧ l = s1 ++ b :: s3 := by
  rcases List.eq_nil_or_concat' s2 with hs | ⟨s3, c, hs⟩
  · subst hs
    have := List.append_inj' h rfl
    simp only [List.cons.injEq, and_true] at this
    exact Or.inl ⟨rfl, this.1.symm, this.2.symm⟩
  · subst hs
    have h2 : l ++ [a] = (s1 ++ b :: s3) ++ [c] := by simpa using h
    have := List.append_inj' h2 rfl
    simp only [List.cons.injEq, and_true] at this
    exact Or.inr ⟨s3, by rw [this.2], this.1⟩

theorem inv_init (trace : List (List Event)) :
    (Sched.init trace).Inv (trace.map stageSteps) := by
  refine ⟨?_, ?_, ?_⟩
  · intro k r hr
    exact ⟨[], by simpa [Sched.init] using hr, by simp⟩
  · intro j hj
    simp [Sched.init] at hj
  · intro s1 k x s2 h
    simp [Sched.init] at h

theorem inv_step (threads : List (List Step)) (st st2 : Sched) (k : Nat)
    (hinv : st.Inv threads) (h : st.step k = some st2) : st2.Inv threads := by
  obtain ⟨hk, x, xs, hr, rfl⟩ := step_some st st2 k h
  obtain ⟨hB, hC, hD⟩ := hinv
  obtain ⟨pre, hpre, hmem⟩ := hB k _ hr
  have hlen : k < st.rest.length := by
    rcases Nat.lt_or_ge k st.rest.length with hlt | hge
    · exact hlt
    · rw [List.getElem?_eq_none hge] at hr
      simp at hr
  refine ⟨?_, ?_, ?_⟩
  · intro k2 r hr2
    by_cases hkk : k = k2
    · subst hkk
      simp only [List.getElem?_set_self hlen, Option.some.injEq] at hr2
      subst hr2
      refine ⟨pre ++ [x], by simpa using hpre, ?_⟩
      intro y hy
      rcases List.mem_append.mp hy with hy | hy
      · exact List.mem_append_left _ (hmem y hy)
      · simp only [List.mem_singleton] at hy
        subst hy
        simp
    · simp only [List.getElem?_set_ne hkk] at hr2
      obtain ⟨pre2, h1, h2⟩ := hB k2 r hr2
      exact ⟨pre2, h1, fun y hy => List.mem_append_left _ (h2 y hy)⟩
  · intro j hj
    by_cases hlive : j + 1 < st.live
    · exact List.mem_append_left _ (hC j hlive)
    · have hx : x = Step.spawn := by
        by_contra hne
        simp only [hne, if_false] at hj
        exact hlive hj
      simp only [hx, if_true] at hj
      have hjk : j = k := by omega
      subst hjk
      simp [hx]
  · intro s1 k2 x2 s2 hsplit
    rcases append_singleton_split _ _ _ _ _ hsplit with ⟨-, hs1, hb⟩ | ⟨s3, -, hold⟩
    · simp only [Prod.mk.injEq] at hb
      obtain ⟨hk2, hx2⟩ := hb
      subst hk2 hx2 hs1
      refine ⟨?_, pre, xs, hpre, hmem⟩
      intro j hj
      exact hC j (by omega)
    · exact hD s1 k2 x2 s3 hold

theorem inv_exec (threads : List (List Step)) (picks : List Nat) :
    ∀ (st st2 : Sched), st.Inv threads → st.exec picks = some st2 → st2.Inv threads := by
  induction picks with
  | nil =>
    intro st st2 hinv h
    simp only [Sched.exec, Option.some.injEq] at h
    subst h
    exact hinv
  | cons k picks ih =>
    intro st st2 hinv h
    simp only [Sched.exec] at h
    cases hs : st.step k with
    | none => simp [hs] at h
    | some st1 =>
      simp only [hs] at h
      exact ih st1 st2 (inv_step threads st st1 k hinv hs) h

theorem stageSteps_append (a b : List Event) :
    stageSteps (a ++ b) = stageSteps a ++ stageSteps b := by
  induction a with
  | nil => rfl
  | cons ev a ih => simp [stageSteps, ih]

/-- The steps of a stage that `run` reaches. -/
theorem stageSteps_shape (w : World) (k : Nat) (s : Cmd) (out0 : Option Handle)
    (t : List Event) (h : StageEvents w k s out0 t) :
    stageSteps t = [] ∨
      ∃ line ecmd err,
        stageSteps t = (if s.parent.isSome then [Step.pipe, Step.spawn] else []) ++
          (if s.debug then [Step.print line] else []) ++ [Step.start ecmd, Step.finish err] ∧
        ecmd.Stdin = specStdin s k ∧ ecmd.Stdout = resolvedStdout out0 s := by
  rcases h with ⟨ht, -⟩ | ⟨line, ecmd, ht, -, h1, h2, -⟩
  · exact Or.inl (by rw [ht]; rfl)
  · refine Or.inr ⟨line, ecmd, (w.cmdRun k ecmd).err, ?_, h1, h2⟩
    rw [ht]
    cases s.parent.isSome <;> cases s.debug <;> rfl

theorem start_split (par dbg : Bool) (line : GoString) (ecmd dcmd : ExecCmd)
    (err : Option Error) (pre r : List Step)
    (h : pre ++ Step.start dcmd :: r =
      (if par then [Step.pipe, Step.spawn] else []) ++
        (if dbg then [Step.print line] else []) ++ [Step.start ecmd, Step.finish err]) :
    dcmd = ecmd ∧ (par = true → Step.pipe ∈ pre ∧ Step.spawn ∈ pre) := by
  cases par <;> cases dbg <;>
    rcases pre with _ | ⟨p1, _ | ⟨p2, _ | ⟨p3, _ | ⟨p4, _ | ⟨p5, pre⟩⟩⟩⟩⟩ <;>
    simp at h <;> simp_all

theorem spawn_split (par dbg : Bool) (line : GoString) (ecmd : ExecCmd)
    (err : Option Error) (pre r : List Step)
    (h : pre ++ Step.spawn :: r =
      (if par then [Step.pipe, Step.spawn] else []) ++
        (if dbg then [Step.print line] else []) ++ [Step.start ecmd, Step.finish err]) :
    Step.pipe ∈ pre := by
  cases par <;> cases dbg <;>
    rcases pre with _ | ⟨p1, _ | ⟨p2, _ | ⟨p3, _ | ⟨p4, _ | ⟨p5, pre⟩⟩⟩⟩⟩ <;>
    simp at h <;> simp_all

/-- C11, as stated, fails: in `a | b`, after the `go` statement nothing makes
the caller wait for the goroutine of `a`; in the interleaving in which the
caller takes three steps before that goroutine takes its first, the process of
`b` is started before the process of `a`. -/
theorem start_order_counterexample :
    ((run (worldOf allSucceed []) 0 pipelineAB
        { execCommand ['b'] [] with Env := (worldOf allSucceed []).environ }).bind
      fun res => (Sched.init res.trace).exec [0, 0, 0, 1, 1, 0]).map
      (fun st => (st.complete, st.taken)) =
    some (true,
      [(0, .pipe), (0, .spawn),
       (0, .start { execCommand ['b'] [] with
          Env := (worldOf allSucceed []).environ, Stdin := some (.pipeRead 0),
          Stdout := some .osStdout, Stderr := some .osStderr }),
       (1, .start { execCommand ['a'] [] with
          Env := (worldOf allSucceed []).environ, Stdin := some .osStdin,
          Stdout := some (.pipeWrite 0), Stderr := some .osStderr }),
       (1, .finish none), (0, .finish none)]) := by
  decide

/-- What is ordered in every interleaving of a run of the engine. -/
theorem sched_order (w : World) (c : Cmd) (cmd : ExecCmd) (hwf : c.wellFormed = true)
    (hin : cmd.Stdin = none) (herr : cmd.Stderr = none) :
    ∃ res, run w 0 c cmd = some res ∧
      ∀ picks st, (Sched.init res.trace).exec picks = some st →
        ∀ s1 k x s2, st.taken = s1 ++ (k, x) :: s2 →
          (x = Step.spawn → (k, Step.pipe) ∈ s1) ∧
          (∀ j, k = j + 1 → (j, Step.spawn) ∈ s1) ∧
          (∀ dcmd, x = Step.start dcmd →
            ∃ s, c.stages[k]? = some s ∧
              (s.parent.isSome = true →
                dcmd.Stdin = some (.pipeRead k) ∧ (k, Step.pipe) ∈ s1 ∧ (k, Step.spawn) ∈ s1)) ∧
          (∀ j ucmd, k = j + 1 → x = Step.start ucmd → ucmd.Stdout = some (.pipeWrite j)) := by
  obtain ⟨res, hr, hshape⟩ := run_shape w c 0 cmd hwf hin herr
  refine ⟨res, hr, ?_⟩
  intro picks st hexec s1 k x s2 hsplit
  obtain ⟨-, -, hD⟩ := inv_exec _ picks _ st (inv_init res.trace) hexec
  obtain ⟨hspawn, pre, r, hthread, hpre⟩ := hD s1 k x s2 hsplit
  have ht : ∃ t, res.trace[k]? = some t ∧ stageSteps t = pre ++ x :: r := by
    simp only [List.getElem?_map] at hthread
    cases htk : res.trace[k]? with
    | none => simp [htk] at hthread
    | some t =>
      refine ⟨t, rfl, ?_⟩
      simpa [htk] using hthread
  obtain ⟨t, htk, hsteps⟩ := ht
  obtain ⟨s, hs, hev, -⟩ := hshape k t htk
  rw [Nat.zero_add] at hev
  rcases stageSteps_shape w k s _ t hev with hnil | ⟨line, ecmd, err, hform, hstdin, hstdout⟩
  · rw [hnil] at hsteps
    simp at hsteps
  · rw [hform] at hsteps
    refine ⟨?_, hspawn, ?_, ?_⟩
    · intro hx
      subst hx
      exact hpre _ (spawn_split _ _ line ecmd err pre r hsteps.symm)
    · intro dcmd hx
      subst hx
      obtain ⟨hcmd, hplumb⟩ := start_split _ _ line ecmd dcmd err pre r hsteps.symm
      subst hcmd
      refine ⟨s, hs, ?_⟩
      intro hpar
      refine ⟨?_, hpre _ (hplumb hpar).1, hpre _ (hplumb hpar).2⟩
      simpa [specStdin, hpar] using hstdin
    · intro j ucmd hk hx
      subst hx hk
      obtain ⟨hcmd, -⟩ := start_split _ _ line ecmd ucmd err pre r hsteps.symm
      subst hcmd
      simpa [stdoutAt, resolvedStdout] using hstdout

/-! ### The schedule that runs the stages one after the other -/

theorem exec_append (a b : List Nat) :
    ∀ st : Sched, st.exec (a ++ b) = (st.exec a).bind fun st2 => st2.exec b := by
  induction a with
  | nil => intro st; rfl
  | cons k a ih =>
    intro st
    simp only [List.cons_append, Sched.exec]
    cases st.step k with
    | none => rfl
    | some st1 => exact ih st1

theorem set_of_getElem? {α : Type} (l : List α) (k : Nat) (a : α) (h : l[k]? = some a) :
    l.set k a = l := by
  induction l generalizing k with
  | nil => rfl
  | cons b l ih =>
    cases k with
    | zero =>
      simp only [List.getElem?_cons_zero, Option.some.injEq] at h
      simp [h]
    | succ k =>
      simp only [List.getElem?_cons_succ] at h
      simp [ih k h]

theorem exec_replicate (k : Nat) (xs : List Step) :
    ∀ st : Sched, k < st.live → st.rest[k]? = some xs →
      ∃ st2, st.exec (List.replicate xs.length k) = some st2 ∧
        st2.taken = st.taken ++ xs.map (fun x => (k, x)) ∧
        st2.rest = st.rest.set k [] ∧ st.live ≤ st2.live ∧
        (Step.spawn ∈ xs → k + 2 ≤ st2.live) := by
  induction xs with
  | nil =>
    intro st _ hr
    exact ⟨st, rfl, by simp, (set_of_getElem? _ _ _ hr).symm, Nat.le_refl _, by simp⟩
  | cons x xs ih =>
    intro st hk hr
    have hlen : k < st.rest.length := by
      rcases Nat.lt_or_ge k st.rest.length with hlt | hge
      · exact hlt
      · rw [List.getElem?_eq_none hge] at hr
        simp at hr
    have hstep : st.step k = some
        { live := if x = Step.spawn then max st.live (k + 2) else st.live,
          rest := st.rest.set k xs, taken := st.taken ++ [(k, x)] } := by
      simp [Sched.step, hk, hr]
    have hlive : st.live ≤ (if x = Step.spawn then max st.live (k + 2) else st.live) := by
      split
      · exact Nat.le_max_left _ _
      · exact Nat.le_refl _
    obtain ⟨st2, hexec, htaken, hrest, hle, hspawn⟩ := ih
      { live := if x = Step.spawn then max st.live (k + 2) else st.live,
        rest := st.rest.set k xs, taken := st.taken ++ [(k, x)] }
      (Nat.lt_of_lt_of_le hk hlive) (List.getElem?_set_self hlen)
    refine ⟨st2, ?_, ?_, ?_, Nat.le_trans hlive hle, ?_⟩
    · simp only [List.length_cons, List.replicate_succ, Sched.exec, hstep]
      exact hexec
    · rw [htaken]
      simp
    · rw [hrest]
      exact List.set_set _ _ _ _
    · intro hmem
      rcases List.mem_cons.mp hmem with hx | hx
      · have : k + 2 ≤ (if x = Step.spawn then max st.live (k + 2) else st.live) := by
          rw [if_pos hx.symm]
          exact Nat.le_max_right _ _
        exact Nat.le_trans this hle
      · exact hspawn hx

theorem exec_downstreamFirst :
    ∀ (T : List (List Step)) (j : Nat) (st : Sched) (finished : List (List Step)),
      st.rest = finished ++ T → finished.length = j → (T ≠ [] → j < st.live) →
      (∀ i t, i + 1 < T.length → T[i]? = some t → Step.spawn ∈ t) →
      ∃ st2, st.exec (downstreamFirst T j) = some st2 ∧
        st2.taken = st.taken ++ tagged T j ∧
        st2.rest = finished ++ T.map (fun _ => []) := by
  intro T
  induction T with
  | nil =>
    intro j st finished hrest _ _ _
    exact ⟨st, rfl, by simp [tagged], by simpa using hrest⟩
  | cons t ts ih =>
    intro j st finished hrest hlen hlive hchain
    have hr : st.rest[j]? = some t := by
      rw [hrest, ← hlen, List.getElem?_append_right (Nat.le_refl _), Nat.sub_self]
      exact List.getElem?_cons_zero
    obtain ⟨st1, hexec1, htaken1, hrest1, -, hspawn1⟩ :=
      exec_replicate j t st (hlive (by simp)) hr
    have hrest1b : st1.rest = (finished ++ [[]]) ++ ts := by
      rw [hrest1, hrest, ← hlen]
      simp
    have hlive1 : ts ≠ [] → j + 1 < st1.live := by
      intro hts
      have hlen2 : 0 + 1 < (t :: ts).length := by
        cases ts with
        | nil => exact absurd rfl hts
        | cons t2 ts2 => simp
      have := hspawn1 (hchain 0 t hlen2 (by simp))
      omega
    have hchain1 : ∀ i t2, i + 1 < ts.length → ts[i]? = some t2 → Step.spawn ∈ t2 := by
      intro i t2 hi hti
      exact hchain (i + 1) t2 (by simp only [List.length_cons]; omega) (by simpa using hti)
    obtain ⟨st2, hexec2, htaken2, hrest2⟩ :=
      ih (j + 1) st1 (finished ++ [[]]) hrest1b (by simp [hlen]) hlive1 hchain1
    refine ⟨st2, ?_, ?_, ?_⟩
    · simp only [downstreamFirst]
      rw [exec_append, hexec1]
      exact hexec2
    · rw [htaken2, htaken1]
      simp [tagged]
    · rw [hrest2]
      simp

theorem tagged_stage (T : List (List Step)) :
    ∀ (j k : Nat) (x : Step), (k, x) ∈ tagged T j → j ≤ k := by
  induction T with
  | nil => intro j k x h; simp [tagged] at h
  | cons t ts ih =>
    intro j k x h
    simp only [tagged, List.mem_append, List.mem_map, Prod.mk.injEq] at h
    rcases h with ⟨y, -, hk, -⟩ | h
    · omega
    · have := ih (j + 1) k x h
      omega

/-- In the steps laid out stage after stage, every step of a stage comes
after all the steps of its downstream stage. -/
theorem tagged_split (T : List (List Step)) :
    ∀ (j k : Nat) (s1 s2 : List (Nat × Step)) (x : Step) (tk : List Step),
      tagged T j = s1 ++ (k + 1, x) :: s2 → j ≤ k → T[k - j]? = some tk →
      ∀ y ∈ tk, (k, y) ∈ s1 := by
  induction T with
  | nil =>
    intro j k s1 s2 x tk h
    simp [tagged] at h
  | cons t ts ih =>
    intro j k s1 s2 x tk h hjk htk y hy
    simp only [tagged] at h
    rcases List.append_eq_append_iff.mp h with ⟨a, hs1, hrest⟩ | ⟨a, ht, hrest⟩
    · rcases Nat.eq_or_lt_of_le hjk with heq | hlt
      · subst heq
        simp only [Nat.sub_self, List.getElem?_cons_zero, Option.some.injEq] at htk
        subst htk
        rw [hs1]
        exact List.mem_append_left _ (List.mem_map.mpr ⟨y, hy, rfl⟩)
      · have hidx : k - j = (k - (j + 1)) + 1 := by omega
        rw [hidx, List.getElem?_cons_succ] at htk
        have := ih (j + 1) k a s2 x tk hrest (by omega) htk y hy
        rw [hs1]
        exact List.mem_append_right _ this
    · cases a with
      | nil =>
        simp only [List.nil_append] at hrest
        have hmem : (k + 1, x) ∈ tagged ts (j + 1) := by
          rw [← hrest]
          simp
        rcases Nat.eq_or_lt_of_le hjk with heq | hlt
        · subst heq
          simp only [Nat.sub_self, List.getElem?_cons_zero, Option.some.injEq] at htk
          subst htk
          simp only [List.append_nil] at ht
          rw [← ht]
          exact List.mem_map.mpr ⟨y, hy, rfl⟩
        · have hidx : k - j = (k - (j + 1)) + 1 := by omega
          rw [hidx, List.getElem?_cons_succ] at htk
          have := ih (j + 1) k [] s2 x tk (by simpa using hrest.symm) (by omega) htk y hy
          simp at this
      | cons b a =>
        simp only [List.cons_append, List.cons.injEq] at hrest
        have hmem : (k + 1, x) ∈ t.map (fun z => (j, z)) := by
          rw [ht, ← hrest.1]
          simp
        simp only [List.mem_map, Prod.mk.injEq] at hmem
        obtain ⟨z, -, hz, -⟩ := hmem
        omega

theorem tagged_lt (T : List (List Step)) :
    ∀ (j k : Nat) (x : Step), (k, x) ∈ tagged T j → k < j + T.length := by
  induction T with
  | nil => intro j k x h; simp [tagged] at h
  | cons t ts ih =>
    intro j k x h
    simp only [tagged, List.mem_append, List.mem_map, Prod.mk.injEq] at h
    simp only [List.length_cons]
    rcases h with ⟨y, -, hk, -⟩ | h
    · omega
    · have := ih (j + 1) k x h
      omega

/-- A stage whose upstream was reached has spawned it and starts its own process. -/
theorem steps_of_link (w : World) (k : Nat) (s : Cmd) (out0 : Option Handle) (t : List Event)
    (h : StageEvents w k s out0 t) (hpar : s.parent.isSome = true) (hne : t ≠ []) :
    Step.spawn ∈ stageSteps t ∧ ∃ dcmd, Step.start dcmd ∈ stageSteps t := by
  rcases stageSteps_shape w k s out0 t h with hnil | ⟨line, ecmd, err, hform, -⟩
  · rcases h with ⟨ht, -⟩ | ⟨line, ecmd, ht, -⟩
    · exact absurd ht hne
    · rw [ht, stageSteps_append, stageSteps_append] at hnil
      simp [stageSteps, Event.steps] at hnil
  · rw [hform, hpar]
    exact ⟨by simp, ecmd, by simp⟩

/-- The interleaving in which every stage takes all its steps before its
upstream takes any is one of the interleavings of every run. -/
theorem downstreamFirst_possible (w : World) (c : Cmd) (cmd : ExecCmd)
    (hwf : c.wellFormed = true) (hin : cmd.Stdin = none) (herr : cmd.Stderr = none) :
    ∃ res, run w 0 c cmd = some res ∧
      ∃ st, (Sched.init res.trace).exec
          (downstreamFirst (res.trace.map stageSteps) 0) = some st ∧
        st.complete = true ∧
        ∀ s1 j ucmd s2, st.taken = s1 ++ (j + 1, Step.start ucmd) :: s2 →
          ∃ dcmd, (j, Step.start dcmd) ∈ s1 := by
  obtain ⟨res, hr, hshape⟩ := run_shape w c 0 cmd hwf hin herr
  refine ⟨res, hr, ?_⟩
  have hlink : ∀ i t, i + 1 < (res.trace.map stageSteps).length →
      (res.trace.map stageSteps)[i]? = some t →
      Step.spawn ∈ t ∧ ∃ dcmd, Step.start dcmd ∈ t := by
    intro i t hi hti
    simp only [List.getElem?_map] at hti
    cases hte : res.trace[i]? with
    | none => simp [hte] at hti
    | some te =>
      simp only [hte, Option.map_some', Option.some.injEq] at hti
      subst hti
      obtain ⟨s, -, hev, hlen⟩ := hshape i te hte
      obtain ⟨hpar, -, hne⟩ := hlen (by simpa using hi)
      exact steps_of_link w _ s _ te hev hpar hne
  obtain ⟨st, hexec, htaken, hrest⟩ :=
    exec_downstreamFirst (res.trace.map stageSteps) 0 (Sched.init res.trace) [] rfl rfl
      (fun _ => by simp [Sched.init]) (fun i t hi hti => (hlink i t hi hti).1)
  refine ⟨st, hexec, ?_, ?_⟩
  · simp [Sched.complete, hrest]
  · intro s1 j ucmd s2 hsplit
    have htag : tagged (res.trace.map stageSteps) 0 = s1 ++ (j + 1, Step.start ucmd) :: s2 := by
      rw [← hsplit, htaken]
      rfl
    have hmem : (j + 1, Step.start ucmd) ∈ tagged (res.trace.map stageSteps) 0 := by
      rw [htag]
      simp
    have hlt := tagged_lt _ 0 (j + 1) _ hmem
    have hj : j < (res.trace.map stageSteps).length := by omega
    have hget : (res.trace.map stageSteps)[j - 0]? =
        some ((res.trace.map stageSteps)[j]) := by
      simp only [Nat.sub_zero]
      exact List.getElem?_eq_getElem hj
    obtain ⟨-, dcmd, hd⟩ := hlink j _ (by omega)
      (List.getElem?_eq_getElem hj)
    exact ⟨dcmd, tagged_split _ 0 j s1 s2 _ _ htag (Nat.zero_le _) hget _ hd⟩

/-- C11, amended. Take any run of the engine (under `Run`, `Successful` or
`Text`) on a well-formed pipeline and any interleaving of its goroutines. For
every link `U | D`: the process of `D` is started with the read end of the
pipe as stdin and the process of `U` with its write end as stdout; the pipe is
set up before the goroutine of `U` is spawned, and that goroutine is spawned
before the process of `D` is started and before `U` takes any step, so before
the process of `U` is started. The two processes themselves are started in no
fixed order: every run has an interleaving, complete at that, in which the
process of `D` is started before the process of `U`, for every link whose
upstream process is started at all. -/
theorem start_order (w : World) (c : Cmd) (hwf : c.wellFormed = true) :
    ∃ cmd, initCmd w c = some cmd ∧
      ∀ cmd2, cmd2 = cmd ∨ cmd2 = { cmd with Stdout := some .buffer } →
        ∃ res, run w 0 c cmd2 = some res ∧
          (∀ picks st, (Sched.init res.trace).exec picks = some st →
            ∀ s1 k x s2, st.taken = s1 ++ (k, x) :: s2 →
              (x = Step.spawn → (k, Step.pipe) ∈ s1) ∧
              (∀ j, k = j + 1 → (j, Step.spawn) ∈ s1) ∧
              (∀ dcmd, x = Step.start dcmd →
                ∃ s, c.stages[k]? = some s ∧
                  (s.parent.isSome = true →
                    dcmd.Stdin = some (.pipeRead k) ∧ (k, Step.pipe) ∈ s1 ∧
                      (k, Step.spawn) ∈ s1)) ∧
              (∀ j ucmd, k = j + 1 → x = Step.start ucmd →
                ucmd.Stdout = some (.pipeWrite j))) ∧
          ∃ picks st, (Sched.init res.trace).exec picks = some st ∧ st.complete = true ∧
            ∀ s1 j ucmd s2, st.taken = s1 ++ (j + 1, Step.start ucmd) :: s2 →
              ∃ dcmd, (j, Step.start dcmd) ∈ s1 := by
  obtain ⟨cmd, hc, -, -, hin, -, herr⟩ := initCmd_wellFormed w c hwf
  refine ⟨cmd, hc, ?_⟩
  intro cmd2 hcmd2
  have hin2 : cmd2.Stdin = none := by
    rcases hcmd2 with h | h <;> subst h <;> exact hin
  have herr2 : cmd2.Stderr = none := by
    rcases hcmd2 with h | h <;> subst h <;> exact herr
  obtain ⟨res, hr, hord⟩ := sched_order w c cmd2 hwf hin2 herr2
  obtain ⟨res2, hr2, st, hexec, hcomplete, hfirst⟩ :=
    downstreamFirst_possible w c cmd2 hwf hin2 herr2
  rw [hr] at hr2
  cases hr2
  exact ⟨res, hr, hord, _, st, hexec, hcomplete, hfirst⟩

/-- C11 amended, at `a | b`: in the interleaving in which the goroutine of `a`
runs as soon as it is spawned, the process of `a` is started first; in the one
in which the caller runs on, the process of `b` is started first; in both the
pipe set-up and the spawn come before either start. -/
theorem start_order_witness :
    pipelineAB.wellFormed = true ∧
    ((run (worldOf allSucceed []) 0 pipelineAB
        { execCommand ['b'] [] with Env := (worldOf allSucceed []).environ }).bind
      fun res => (Sched.init res.trace).exec [0, 0, 1, 1, 0, 0]).map
      (fun st => st.taken.map fun x => (x.1, x.2.kind)) =
    some [(0, "pipe"), (0, "spawn"), (1, "start"), (1, "finish"), (0, "start"),
      (0, "finish")] ∧
    ((run (worldOf allSucceed []) 0 pipelineAB
        { execCommand ['b'] [] with Env := (worldOf allSucceed []).environ }).bind
      fun res => (Sched.init res.trace).exec [0, 0, 0, 0, 1, 1]).map
      (fun st => st.taken.map fun x => (x.1, x.2.kind)) =
    some [(0, "pipe"), (0, "spawn"), (0, "start"), (0, "finish"), (1, "start"),
      (1, "finish")] ∧
    ((run (worldOf allSucceed []) 0 pipelineAB
        { execCommand ['b'] [] with Env := (worldOf allSucceed []).environ }).bind
      fun res => (Sched.init res.trace).exec [1]) = none ∧
    ∃ cmd, initCmd (worldOf allSucceed []) pipelineAB = some cmd ∧
      ∀ cmd2, cmd2 = cmd ∨ cmd2 = { cmd with Stdout := some .buffer } →
        ∃ res, run (worldOf allSucceed []) 0 pipelineAB cmd2 = some res ∧
          (∀ picks st, (Sched.init res.trace).exec picks = some st →
            ∀ s1 k x s2, st.taken = s1 ++ (k, x) :: s2 →
              (x = Step.spawn → (k, Step.pipe) ∈ s1) ∧
              (∀ j, k = j + 1 → (j, Step.spawn) ∈ s1) ∧
              (∀ dcmd, x = Step.start dcmd →
                ∃ s, pipelineAB.stages[k]? = some s ∧
                  (s.parent.isSome = true →
                    dcmd.Stdin = some (.pipeRead k) ∧ (k, Step.pipe) ∈ s1 ∧
                      (k, Step.spawn) ∈ s1)) ∧
              (∀ j ucmd, k = j + 1 → x = Step.start ucmd →
                ucmd.Stdout = some (.pipeWrite j))) ∧
          ∃ picks st, (Sched.init res.trace).exec picks = some st ∧ st.complete = true ∧
            ∀ s1 j ucmd s2, st.taken = s1 ++ (j + 1, Step.start ucmd) :: s2 →
              ∃ dcmd, (j, Step.start dcmd) ∈ s1 :=
  ⟨by decide, by decide, by decide, by decide,
    start_order (worldOf allSucceed []) pipelineAB (by decide)⟩

end Shelley
